import Mathlib

/-!
Verification of the STT-tool transcription core against its specification.

The Python sources are shallowly embedded: floats become rationals (`ℚ`),
lists stay lists, `None`-able values become `Option`, and methods become
functions taking the object's configuration record.  Every definition below
mirrors one function of `src/stt_service`, file and line ranges are given in
the doc comments.
-/

set_option maxHeartbeats 1000000
set_option maxRecDepth 8000

/-! ### Chunker (`stt_service/core/chunker.py`)

`AudioChunker` keeps the four configuration fields set in `__init__`;
only `max_chunk_duration` and `overlap_duration` feed
`calculate_chunk_boundaries`.  The `while current_start < duration` loop is
embedded with explicit fuel; `chunkFuel` provably dominates the number of
iterations whenever `0 ≤ O < M` and no silence points are given. -/

structure AudioChunker where
  max_chunk_duration : ℚ
  overlap_duration : ℚ
  silence_threshold_db : ℤ
  min_silence_duration : ℚ

/-- Python `min(candidates, key=lambda x: abs(x - target_end))`: the first
element whose distance to the target is minimal. -/
def closestToTarget (target : ℚ) (c : ℚ) (cs : List ℚ) : ℚ :=
  cs.foldl (fun best x => if |x - target| < |best - target| then x else best) c

/-- Split-point selection of `calculate_chunk_boundaries`
(chunker.py lines 183-200): look for a silence point within
`[0.8 * target_end, min(1.1 * target_end, duration)]`, picking the candidate
closest to the target; with no silence points (Python falsy list) or no
candidate, split at `target_end`. -/
def selectSplit (silence_points : List ℚ) (duration target_end : ℚ) : ℚ :=
  match silence_points with
  | [] => target_end
  | _ :: _ =>
    let search_start := target_end * (4 / 5)
    let search_end := target_end * (11 / 10)
    let candidates := silence_points.filter
      (fun sp => decide (search_start ≤ sp) && decide (sp ≤ min search_end duration))
    match candidates with
    | [] => target_end
    | c :: cs => closestToTarget target_end c cs

/-- The loop body of `calculate_chunk_boundaries` (chunker.py lines 171-207).
Each iteration either emits the final `(current_start, duration)` chunk or
emits `(current_start, split_point)` and restarts at
`max 0 (split_point - overlap)`. -/
def chunkLoop (M O duration : ℚ) (silence_points : List ℚ) :
    ℕ → ℚ → List (ℚ × ℚ)
  | 0, _ => []
  | fuel + 1, current_start =>
    if current_start < duration then
      let target_end := min (current_start + M) duration
      if duration ≤ target_end then
        [(current_start, duration)]
      else
        let split_point := selectSplit silence_points duration target_end
        (current_start, split_point) ::
          chunkLoop M O duration silence_points fuel (max 0 (split_point - O))
    else []

/-- Fuel bound for the loop: with `0 ≤ O < M` the start advances by `M - O`
per iteration, so `duration / (M - O) + 2` iterations always suffice; the
numerator of the quotient is a kernel-computable upper bound for it. -/
def chunkFuel (M O duration : ℚ) : ℕ :=
  (duration / (M - O)).num.toNat + 2

/-- `AudioChunker.calculate_chunk_boundaries` (chunker.py lines 153-207).
`silence_points = []` models both Python `None` and the empty list (the
source guards with the falsy check `if silence_points:`). -/
def AudioChunker.calculate_chunk_boundaries (c : AudioChunker) (duration : ℚ)
    (silence_points : List ℚ) : List (ℚ × ℚ) :=
  if duration ≤ c.max_chunk_duration then [(0, duration)]
  else
    chunkLoop c.max_chunk_duration c.overlap_duration duration silence_points
      (chunkFuel c.max_chunk_duration c.overlap_duration duration) 0

/-- A chunker configured like the spec scenarios (`M`, `O` explicit, the two
silence-detection tunables at their defaults). -/
def mkChunker (M O : ℚ) : AudioChunker :=
  ⟨M, O, -30, 1 / 2⟩

/-- The boundary-list shape asserted by the spec: every chunk except the last
is exactly `M` long, each next chunk starts at the previous end minus `O`,
and the last chunk ends exactly at `D` (with positive residual length at
most `M`). -/
inductive ChunkChain (M O D : ℚ) : List (ℚ × ℚ) → Prop
  | last {s : ℚ} : s < D → D ≤ s + M → ChunkChain M O D [(s, D)]
  | step {s e₂ : ℚ} {rest : List (ℚ × ℚ)} :
      ChunkChain M O D ((s + M - O, e₂) :: rest) →
      ChunkChain M O D ((s, s + M) :: (s + M - O, e₂) :: rest)

theorem ChunkChain.length_le {M O D : ℚ} {l : List (ℚ × ℚ)}
    (h : ChunkChain M O D l) : ∀ p ∈ l, p.2 - p.1 ≤ M := by
  induction h with
  | last h1 h2 =>
    intro p hp
    simp only [List.mem_singleton] at hp
    subst hp
    simpa using by linarith
  | step _ ih =>
    intro p hp
    rcases List.mem_cons.mp hp with h | h
    · subst h; simp
    · exact ih p h

theorem ChunkChain.overlap {M O D : ℚ} {l : List (ℚ × ℚ)}
    (h : ChunkChain M O D l) :
    List.Chain' (fun p q => q.1 = p.2 - O) l := by
  induction h with
  | last _ _ => simp
  | step _ ih =>
    exact List.Chain'.cons (by simp) ih

theorem ChunkChain.lastEnd {M O D : ℚ} {l : List (ℚ × ℚ)}
    (h : ChunkChain M O D l) : ∃ p, l.getLast? = some p ∧ p.2 = D := by
  induction h with
  | last h1 h2 => exact ⟨_, rfl, rfl⟩
  | step _ ih =>
    obtain ⟨p, hp, hpD⟩ := ih
    refine ⟨p, ?_, hpD⟩
    rwa [List.getLast?_cons_cons]

theorem ChunkChain.covers {M O D : ℚ} {l : List (ℚ × ℚ)}
    (hO : 0 ≤ O) (h : ChunkChain M O D l) :
    ∀ x s₀ e₀, l.head? = some (s₀, e₀) → s₀ ≤ x → x ≤ D →
      ∃ p ∈ l, p.1 ≤ x ∧ x ≤ p.2 := by
  induction h with
  | last h1 h2 =>
    intro x s₀ e₀ hh hs hx
    simp only [List.head?_cons, Option.some.injEq, Prod.mk.injEq] at hh
    exact ⟨_, List.mem_singleton_self _, hh.1.le.trans hs, hx⟩
  | @step s e₂ rest hrest ih =>
    intro x s₀ e₀ hh hs hx
    simp only [List.head?_cons, Option.some.injEq, Prod.mk.injEq] at hh
    by_cases hxe : x ≤ s + M
    · exact ⟨(s, s + M), List.mem_cons_self _ _, hh.1.le.trans hs, hxe⟩
    · obtain ⟨p, hp, h1, h2⟩ := ih x (s + M - O) e₂ rfl (by linarith) hx
      exact ⟨p, List.mem_cons_of_mem _ hp, h1, h2⟩

/-- Loop invariant: with no silence points, enough fuel, and a start before
the end of the audio, the loop emits a `ChunkChain` whose head starts at the
current position. -/
theorem chunkLoop_chain (M O D : ℚ) (hO : 0 ≤ O) (hOM : O < M) :
    ∀ (fuel : ℕ) (cs : ℚ), 0 ≤ cs → cs < D →
      D ≤ cs + M + fuel * (M - O) →
      ChunkChain M O D (chunkLoop M O D [] (fuel + 1) cs) ∧
      (chunkLoop M O D [] (fuel + 1) cs).head? = some (cs, min (cs + M) D) := by
  intro fuel
  induction fuel with
  | zero =>
    intro cs hcs0 hcsD hfuel
    simp only [Nat.cast_zero, zero_mul, add_zero] at hfuel
    rw [chunkLoop]
    simp only [hcsD, if_true]
    have ht : D ≤ min (cs + M) D := le_min hfuel le_rfl
    rw [if_pos ht]
    refine ⟨ChunkChain.last hcsD hfuel, ?_⟩
    simp [min_eq_right hfuel]
  | succ f ih =>
    intro cs hcs0 hcsD hfuel
    rw [chunkLoop]
    simp only [hcsD, if_true]
    by_cases hlast : D ≤ cs + M
    · have ht : D ≤ min (cs + M) D := le_min hlast le_rfl
      rw [if_pos ht]
      exact ⟨ChunkChain.last hcsD hlast, by simp [min_eq_right hlast]⟩
    · push_neg at hlast
      have ht : ¬ D ≤ min (cs + M) D := by
        simp only [le_min_iff, not_and]
        intro h; exact absurd h (not_le.mpr hlast)
      rw [if_neg ht]
      have hmin : min (cs + M) D = cs + M := min_eq_left (le_of_lt hlast)
      have hsplit : ∀ t : ℚ, selectSplit [] D t = t := fun t => rfl
      have hnext : max 0 (selectSplit [] D (min (cs + M) D) - O) = cs + M - O := by
        rw [hsplit, hmin]
        exact max_eq_right (by linarith)
      have hcs0' : (0 : ℚ) ≤ cs + M - O := by linarith
      have hcsD' : cs + M - O < D := by linarith
      have hfuel' : D ≤ (cs + M - O) + M + f * (M - O) := by
        have : ((f + 1 : ℕ) : ℚ) = (f : ℚ) + 1 := by push_cast; ring
        rw [this] at hfuel
        linarith [hfuel]
      obtain ⟨hchain, hhead⟩ := ih (cs + M - O) hcs0' hcsD' hfuel'
      rw [hnext]
      refine ⟨?_, by simp [hsplit, hmin]⟩
      cases hcl : chunkLoop M O D [] (f + 1) (cs + M - O) with
      | nil => rw [hcl] at hhead; exact absurd hhead (by simp)
      | cons p tail =>
        rw [hcl] at hchain hhead
        simp only [List.head?_cons, Option.some.injEq] at hhead
        subst hhead
        rw [hsplit, hmin]
        exact ChunkChain.step hchain

/-- The fuel chosen by `calculate_chunk_boundaries` satisfies the premise of
`chunkLoop_chain` when starting at 0. -/
theorem chunkFuel_sufficient (M O D : ℚ) (hO : 0 ≤ O) (hOM : O < M)
    (hD : 0 < D) :
    ∃ f : ℕ, chunkFuel M O D = f + 1 ∧ D ≤ 0 + M + f * (M - O) := by
  have hMO : (0 : ℚ) < M - O := by linarith
  refine ⟨(D / (M - O)).num.toNat + 1, by rw [chunkFuel], ?_⟩
  have hqpos : 0 < D / (M - O) := div_pos hD hMO
  have hnum : 0 < (D / (M - O)).num := Rat.num_pos.mpr hqpos
  have hden : (1 : ℚ) ≤ ((D / (M - O)).den : ℚ) := by
    exact_mod_cast (D / (M - O)).pos
  have hqnum : D / (M - O) ≤ (((D / (M - O)).num : ℤ) : ℚ) := by
    conv_lhs => rw [← Rat.num_div_den (D / (M - O))]
    exact div_le_self (by exact_mod_cast hnum.le) hden
  have htoNat : (((D / (M - O)).num.toNat : ℕ) : ℚ)
      = (((D / (M - O)).num : ℤ) : ℚ) := by
    exact_mod_cast Int.toNat_of_nonneg hnum.le
  have hceil : D / (M - O) ≤ (((D / (M - O)).num.toNat : ℕ) : ℚ) := by
    rw [htoNat]; exact hqnum
  have hprod : D ≤ (((D / (M - O)).num.toNat : ℕ) : ℚ) * (M - O) := by
    calc D = D / (M - O) * (M - O) := by field_simp
    _ ≤ _ := mul_le_mul_of_nonneg_right hceil hMO.le
  have hcast : (((D / (M - O)).num.toNat + 1 : ℕ) : ℚ)
      = (((D / (M - O)).num.toNat : ℕ) : ℚ) + 1 := by
    push_cast
    ring
  rw [hcast]
  nlinarith [hprod, hMO]

/-- C1: for every duration `D > 0` and chunker parameters `0 ≤ O < M`,
`calculate_chunk_boundaries` with no silence points returns `[(0, D)]` when
`D ≤ M`, and otherwise an ordered boundary list starting at 0 in which every
chunk except the last is exactly `M` long, each next chunk starts at the
previous end minus `O`, and the last chunk ends exactly at `D`; in
particular the three spec scenarios with `M = 300`, `O = 3` evaluate as the
spec states. -/
theorem C1_calculate_chunk_boundaries :
    (∀ (c : AudioChunker) (D : ℚ), 0 < D → 0 ≤ c.overlap_duration →
        c.overlap_duration < c.max_chunk_duration →
        (D ≤ c.max_chunk_duration →
          c.calculate_chunk_boundaries D [] = [(0, D)]) ∧
        (c.max_chunk_duration < D →
          ChunkChain c.max_chunk_duration c.overlap_duration D
              (c.calculate_chunk_boundaries D []) ∧
            (c.calculate_chunk_boundaries D []).head? =
              some (0, c.max_chunk_duration))) ∧
    (mkChunker 300 3).calculate_chunk_boundaries 120 [] = [(0, 120)] ∧
    (mkChunker 300 3).calculate_chunk_boundaries 400 []
      = [(0, 300), (297, 400)] ∧
    (mkChunker 300 3).calculate_chunk_boundaries 700 []
      = [(0, 300), (297, 597), (594, 700)] := by
  refine ⟨?_, by with_unfolding_all decide, by with_unfolding_all decide,
    by with_unfolding_all decide⟩
  intro c D hD hO hOM
  constructor
  · intro hle
    rw [AudioChunker.calculate_chunk_boundaries, if_pos hle]
  · intro hlt
    have hneg : ¬ D ≤ c.max_chunk_duration := not_le.mpr hlt
    rw [AudioChunker.calculate_chunk_boundaries, if_neg hneg]
    obtain ⟨f, hf, hfuel⟩ :=
      chunkFuel_sufficient c.max_chunk_duration c.overlap_duration D hO hOM hD
    rw [hf]
    obtain ⟨hchain, hhead⟩ :=
      chunkLoop_chain c.max_chunk_duration c.overlap_duration D hO hOM f 0
        le_rfl (by linarith) hfuel
    refine ⟨hchain, ?_⟩
    rw [hhead, zero_add, min_eq_left hlt.le]

/-- C1 witness: the general statement applied to the `M = 300`, `O = 3`
chunker on `D = 400`. -/
theorem C1_calculate_chunk_boundaries_witness :
    (0 : ℚ) < 400 ∧
    ChunkChain 300 3 400 ((mkChunker 300 3).calculate_chunk_boundaries 400 []) := by
  refine ⟨by norm_num, ?_⟩
  have h := (C1_calculate_chunk_boundaries.1 (mkChunker 300 3) 400
    (by norm_num) (by norm_num [mkChunker]) (by norm_num [mkChunker])).2
    (by norm_num [mkChunker])
  exact h.1

/-- C2 counterexample: with silence points present the "every chunk length
is at most `M`" invariant fails; a silence point inside the search window
but past the target end stretches the first chunk to length 310 > 300. -/
theorem C2_chunk_invariants_counterexample :
    (mkChunker 300 3).calculate_chunk_boundaries 700 [310]
      = [(0, 310), (307, 607), (604, 700)] ∧
    ¬ ∀ p ∈ (mkChunker 300 3).calculate_chunk_boundaries 700 [310],
        p.2 - p.1 ≤ (mkChunker 300 3).max_chunk_duration := by
  have he : (mkChunker 300 3).calculate_chunk_boundaries 700 [310]
      = [(0, 310), (307, 607), (604, 700)] := by with_unfolding_all decide
  refine ⟨he, fun h => ?_⟩
  have h2 := h (0, 310) (by rw [he]; simp)
  norm_num [mkChunker] at h2

/-- C2 (amended): for `D > M` and `0 ≤ O < M`, the boundary set produced
with no silence points satisfies all four invariants: every chunk length is
at most `M`, consecutive chunks overlap by exactly `O`, the last chunk ends
at `D`, and every point of `[0, D]` lies in at least one chunk.  (With
silence points the length bound can fail, see the counterexample.) -/
theorem C2_chunk_invariants_no_silence (c : AudioChunker) (D : ℚ)
    (hO : 0 ≤ c.overlap_duration)
    (hOM : c.overlap_duration < c.max_chunk_duration)
    (hD : c.max_chunk_duration < D) :
    (∀ p ∈ c.calculate_chunk_boundaries D [],
      p.2 - p.1 ≤ c.max_chunk_duration) ∧
    List.Chain' (fun p q => q.1 = p.2 - c.overlap_duration)
      (c.calculate_chunk_boundaries D []) ∧
    (∃ p, (c.calculate_chunk_boundaries D []).getLast? = some p ∧ p.2 = D) ∧
    ∀ x : ℚ, 0 ≤ x → x ≤ D →
      ∃ p ∈ c.calculate_chunk_boundaries D [], p.1 ≤ x ∧ x ≤ p.2 := by
  have hD0 : 0 < D := lt_trans (lt_of_le_of_lt hO hOM) hD
  have hneg : ¬ D ≤ c.max_chunk_duration := not_le.mpr hD
  obtain ⟨f, hf, hfuel⟩ :=
    chunkFuel_sufficient c.max_chunk_duration c.overlap_duration D hO hOM hD0
  rw [AudioChunker.calculate_chunk_boundaries, if_neg hneg, hf]
  obtain ⟨hchain, hhead⟩ :=
    chunkLoop_chain c.max_chunk_duration c.overlap_duration D hO hOM f 0
      le_rfl (by linarith) hfuel
  exact ⟨hchain.length_le, hchain.overlap, hchain.lastEnd,
    fun x hx0 hxD => hchain.covers hO x 0 _ hhead hx0 hxD⟩

/-- C2 witness: the amended invariants applied to the `M = 300`, `O = 3`
chunker on `D = 400`, sampled at the point `x = 350`. -/
theorem C2_chunk_invariants_no_silence_witness :
    (∃ p, ((mkChunker 300 3).calculate_chunk_boundaries 400 []).getLast?
        = some p ∧ p.2 = 400) ∧
    ∃ p ∈ (mkChunker 300 3).calculate_chunk_boundaries 400 [],
      p.1 ≤ 350 ∧ (350 : ℚ) ≤ p.2 := by
  have h := C2_chunk_invariants_no_silence (mkChunker 300 3) 400
    (by norm_num [mkChunker]) (by norm_num [mkChunker]) (by norm_num [mkChunker])
  exact ⟨h.2.2.1, h.2.2.2 350 (by norm_num) (by norm_num)⟩

/-! ### Provider segments and the Gemini adapter
(`stt_service/providers/base.py`, `stt_service/providers/gemini.py`)

`TranscriptionSegment` mirrors the dataclass of `base.py`; word entries are
kept as `(start_time, end_time)` pairs, the only fields the core reads. -/

structure TranscriptionSegment where
  text : String
  start_time : ℚ
  end_time : ℚ
  speaker_id : Option String := none
  confidence : Option ℚ := none
  words : Option (List (ℚ × ℚ)) := none
deriving DecidableEq

/-- Python `round` to the nearest integer with ties to even (floats are
modelled as exact rationals). -/
def roundHalfEven (x : ℚ) : ℤ :=
  let f := ⌊x⌋
  let r := x - f
  if r < 1 / 2 then f
  else if 1 / 2 < r then f + 1
  else if Even f then f else f + 1

/-- Python `round(x, 2)`. -/
def pyRound2 (x : ℚ) : ℚ :=
  (roundHalfEven (100 * x) : ℚ) / 100

/-- `max(s.end_time for s in segments)` over a non-empty list. -/
def maxEnd (s0 : TranscriptionSegment) (rest : List TranscriptionSegment) : ℚ :=
  rest.foldl (fun m s => max m s.end_time) s0.end_time

/-- `min(s.start_time for s in segments)` over a non-empty list. -/
def minStart (s0 : TranscriptionSegment) (rest : List TranscriptionSegment) : ℚ :=
  rest.foldl (fun m s => min m s.start_time) s0.start_time

/-- `scale = (duration / max_end) if needs_rescale and max_end > 0 else 1.0`
(gemini.py line 691). -/
def alignScale (duration max_end : ℚ) : ℚ :=
  if duration * (21 / 20) < max_end ∧ 0 < max_end then duration / max_end else 1

/-- The per-segment body of the alignment loop (gemini.py lines 694-709):
clamp the start at 0, the end at `duration`, push a degenerate `end ≤ start`
to `min (start + 0.1) duration`, and round both to 2 decimals. -/
def alignSeg (duration scale : ℚ) (seg : TranscriptionSegment) :
    TranscriptionSegment :=
  let start := max 0 (seg.start_time * scale)
  let e := min duration (seg.end_time * scale)
  let e2 := if e ≤ start then min (start + 1 / 10) duration else e
  { seg with start_time := pyRound2 start, end_time := pyRound2 e2 }

/-- `GeminiProvider._align_timestamps` (gemini.py lines 658-711): a no-op
when all ends are within 5 % of the duration (`needs_rescale` false) and no
start is negative (`needs_negative_fix` false); otherwise every segment is
rescaled, clamped and rounded by `alignSeg`. -/
def Gemini.align_timestamps (segments : List TranscriptionSegment)
    (duration : ℚ) : List TranscriptionSegment :=
  match segments with
  | [] => segments
  | s0 :: rest =>
    if ¬ duration * (21 / 20) < maxEnd s0 rest ∧ ¬ minStart s0 rest < 0 then
      segments
    else
      (s0 :: rest).map (alignSeg duration (alignScale duration (maxEnd s0 rest)))

theorem roundHalfEven_ge_floor (x : ℚ) : ⌊x⌋ ≤ roundHalfEven x := by
  unfold roundHalfEven
  dsimp only
  split_ifs <;> omega

theorem roundHalfEven_le_floor_add_one (x : ℚ) :
    roundHalfEven x ≤ ⌊x⌋ + 1 := by
  unfold roundHalfEven
  dsimp only
  split_ifs <;> omega

theorem roundHalfEven_mono {x y : ℚ} (h : x ≤ y) :
    roundHalfEven x ≤ roundHalfEven y := by
  rcases lt_or_eq_of_le (Int.floor_le_floor h) with hf | hf
  · calc roundHalfEven x ≤ ⌊x⌋ + 1 := roundHalfEven_le_floor_add_one x
    _ ≤ ⌊y⌋ := by omega
    _ ≤ roundHalfEven y := roundHalfEven_ge_floor y
  · unfold roundHalfEven
    rw [← hf]
    have hfx : (⌊x⌋ : ℚ) ≤ x := Int.floor_le x
    dsimp only
    split_ifs <;> first | omega | linarith

theorem roundHalfEven_intCast (k : ℤ) : roundHalfEven (k : ℚ) = k := by
  unfold roundHalfEven
  dsimp only
  rw [Int.floor_intCast]
  rw [if_pos (by norm_num)]

theorem pyRound2_mono {x y : ℚ} (h : x ≤ y) : pyRound2 x ≤ pyRound2 y := by
  unfold pyRound2
  have h1 : roundHalfEven (100 * x) ≤ roundHalfEven (100 * y) :=
    roundHalfEven_mono (by linarith)
  have h2 : ((roundHalfEven (100 * x) : ℤ) : ℚ)
      ≤ ((roundHalfEven (100 * y) : ℤ) : ℚ) := by exact_mod_cast h1
  linarith

theorem pyRound2_exact {x : ℚ} (k : ℤ) (hx : 100 * x = (k : ℚ)) :
    pyRound2 x = x := by
  unfold pyRound2
  rw [hx, roundHalfEven_intCast]
  field_simp
  linarith

theorem pyRound2_nonneg {x : ℚ} (h : 0 ≤ x) : 0 ≤ pyRound2 x := by
  have h2 := pyRound2_mono h
  rwa [pyRound2_exact 0 (by norm_num)] at h2

theorem pyRound2_le_of_le {x d : ℚ} (k : ℤ) (hk : 100 * d = (k : ℚ))
    (h : x ≤ d) : pyRound2 x ≤ d := by
  have h2 := pyRound2_mono h
  rwa [pyRound2_exact k hk] at h2

/-- Generic fold bound: every listed value is at most the running maximum. -/
theorem le_foldl_max {α : Type} (f : α → ℚ) (l : List α) :
    ∀ init : ℚ, init ≤ l.foldl (fun m s => max m (f s)) init ∧
      ∀ b ∈ l, f b ≤ l.foldl (fun m s => max m (f s)) init := by
  induction l with
  | nil => exact fun init => ⟨le_rfl, by simp⟩
  | cons x t ih =>
    intro init
    obtain ⟨h1, h2⟩ := ih (max init (f x))
    refine ⟨le_trans (le_max_left _ _) h1, ?_⟩
    intro b hb
    rcases List.mem_cons.mp hb with hb | hb
    · subst hb; exact le_trans (le_max_right _ _) h1
    · exact h2 b hb

/-- Generic fold attainment: the running maximum is the start value or a
listed value. -/
theorem foldl_max_mem {α : Type} (f : α → ℚ) (l : List α) :
    ∀ init : ℚ, l.foldl (fun m s => max m (f s)) init = init ∨
      ∃ b ∈ l, l.foldl (fun m s => max m (f s)) init = f b := by
  induction l with
  | nil => exact fun init => Or.inl rfl
  | cons x t ih =>
    intro init
    rcases ih (max init (f x)) with h | ⟨b, hb, he⟩
    · rcases max_choice init (f x) with hm | hm
      · exact Or.inl (by rw [List.foldl_cons, h, hm])
      · exact Or.inr ⟨x, List.mem_cons_self _ _, by rw [List.foldl_cons, h, hm]⟩
    · exact Or.inr ⟨b, List.mem_cons_of_mem _ hb, by rw [List.foldl_cons, he]⟩

/-- Generic fold bound: the running minimum is at most the start value and
every listed value. -/
theorem foldl_min_le {α : Type} (f : α → ℚ) (l : List α) :
    ∀ init : ℚ, l.foldl (fun m s => min m (f s)) init ≤ init ∧
      ∀ b ∈ l, l.foldl (fun m s => min m (f s)) init ≤ f b := by
  induction l with
  | nil => exact fun init => ⟨le_rfl, by simp⟩
  | cons x t ih =>
    intro init
    obtain ⟨h1, h2⟩ := ih (min init (f x))
    refine ⟨le_trans h1 (min_le_left _ _), ?_⟩
    intro b hb
    rcases List.mem_cons.mp hb with hb | hb
    · subst hb; exact le_trans h1 (min_le_right _ _)
    · exact h2 b hb

/-- Generic fold attainment for the minimum. -/
theorem foldl_min_mem {α : Type} (f : α → ℚ) (l : List α) :
    ∀ init : ℚ, l.foldl (fun m s => min m (f s)) init = init ∨
      ∃ b ∈ l, l.foldl (fun m s => min m (f s)) init = f b := by
  induction l with
  | nil => exact fun init => Or.inl rfl
  | cons x t ih =>
    intro init
    rcases ih (min init (f x)) with h | ⟨b, hb, he⟩
    · rcases min_choice init (f x) with hm | hm
      · exact Or.inl (by rw [List.foldl_cons, h, hm])
      · exact Or.inr ⟨x, List.mem_cons_self _ _, by rw [List.foldl_cons, h, hm]⟩
    · exact Or.inr ⟨b, List.mem_cons_of_mem _ hb, by rw [List.foldl_cons, he]⟩


theorem maxEnd_ge (s0 : TranscriptionSegment) (rest : List TranscriptionSegment) :
    ∀ b ∈ s0 :: rest, b.end_time ≤ maxEnd s0 rest := by
  unfold maxEnd
  intro b hb
  rcases List.mem_cons.mp hb with hb | hb
  · rw [hb]
    exact (le_foldl_max (fun s : TranscriptionSegment => s.end_time)
      rest s0.end_time).1
  · exact (le_foldl_max (fun s : TranscriptionSegment => s.end_time)
      rest s0.end_time).2 b hb

theorem maxEnd_mem (s0 : TranscriptionSegment) (rest : List TranscriptionSegment) :
    ∃ b ∈ s0 :: rest, maxEnd s0 rest = b.end_time := by
  unfold maxEnd
  rcases foldl_max_mem (fun s : TranscriptionSegment => s.end_time)
    rest s0.end_time with h | ⟨b, hb, he⟩
  · exact ⟨s0, List.mem_cons_self _ _, h⟩
  · exact ⟨b, List.mem_cons_of_mem _ hb, he⟩

theorem minStart_le (s0 : TranscriptionSegment) (rest : List TranscriptionSegment) :
    ∀ b ∈ s0 :: rest, minStart s0 rest ≤ b.start_time := by
  unfold minStart
  intro b hb
  rcases List.mem_cons.mp hb with hb | hb
  · rw [hb]
    exact (foldl_min_le (fun s : TranscriptionSegment => s.start_time)
      rest s0.start_time).1
  · exact (foldl_min_le (fun s : TranscriptionSegment => s.start_time)
      rest s0.start_time).2 b hb

theorem minStart_mem (s0 : TranscriptionSegment) (rest : List TranscriptionSegment) :
    ∃ b ∈ s0 :: rest, minStart s0 rest = b.start_time := by
  unfold minStart
  rcases foldl_min_mem (fun s : TranscriptionSegment => s.start_time)
    rest s0.start_time with h | ⟨b, hb, he⟩
  · exact ⟨s0, List.mem_cons_self _ _, h⟩
  · exact ⟨b, List.mem_cons_of_mem _ hb, he⟩

theorem alignScale_nonneg {d ME : ℚ} (hd : 0 < d) : 0 ≤ alignScale d ME := by
  unfold alignScale
  split_ifs with h
  · exact div_nonneg hd.le h.2.le
  · norm_num

/-- If the segment starts no later than `d` and no later than `max_end`,
its scaled start stays at most `d`. -/
theorem alignScale_start_le {d ME a : ℚ} (hd : 0 < d) (had : a ≤ d)
    (haME : a ≤ ME) : a * alignScale d ME ≤ d := by
  unfold alignScale
  split_ifs with h
  · rcases le_or_lt a 0 with h0 | h0
    · exact le_trans (mul_nonpos_of_nonpos_of_nonneg h0
        (div_nonneg hd.le h.2.le)) hd.le
    · calc a * (d / ME) = d * (a / ME) := by ring
      _ ≤ d * 1 := mul_le_mul_of_nonneg_left ((div_le_one h.2).mpr haME) hd.le
      _ = d := mul_one d
  · simpa using had

/-- The clamped, collapsed and rounded timestamps of one aligned segment
stay within `[0, d]` and keep `start_time ≤ end_time`, provided the scaled
start does not exceed `d` and `d` is a whole number of centiseconds. -/
theorem alignSeg_bounds (d scale : ℚ) (t : TranscriptionSegment) (hd : 0 < d)
    (hsc : t.start_time * scale ≤ d) (k : ℤ) (hk : 100 * d = (k : ℚ)) :
    0 ≤ (alignSeg d scale t).start_time ∧
    (alignSeg d scale t).start_time ≤ (alignSeg d scale t).end_time ∧
    (alignSeg d scale t).end_time ≤ d := by
  have h0d : (0 : ℚ) ≤ max 0 (t.start_time * scale) := le_max_left _ _
  have hsd : max 0 (t.start_time * scale) ≤ d := max_le hd.le hsc
  unfold alignSeg
  dsimp only
  by_cases hcoll :
      min d (t.end_time * scale) ≤ max 0 (t.start_time * scale)
  · rw [if_pos hcoll]
    refine ⟨pyRound2_nonneg h0d, ?_, ?_⟩
    · exact pyRound2_mono (le_min (by linarith) hsd)
    · exact pyRound2_le_of_le k hk (min_le_right _ _)
  · rw [if_neg hcoll]
    push_neg at hcoll
    refine ⟨pyRound2_nonneg h0d, ?_, ?_⟩
    · exact pyRound2_mono hcoll.le
    · exact pyRound2_le_of_le k hk (min_le_left _ _)

/-- C4 counterexample: three runs of `_align_timestamps` violating the
claim.  A duration-10 chunk whose single segment is `(0, 0)` is below the
5 % tolerance, so it is returned unchanged — the degenerate segment is not
collapsed and `end_time > start_time` fails.  A segment `(19.998, 20)` with
duration 10 is rescaled to `(9.999, 10)` and the 2-decimal rounding turns
it into `(10, 10)`, so `end_time > start_time` fails even after alignment.
A segment `(0, 0.012)` with duration `0.006` is rescaled to `(0, 0.006)`
and rounded to `(0, 0.01)`, whose end exceeds the duration, so alignment
does not guarantee timestamps within `[0, d]`. -/
theorem C4_align_timestamps_counterexample :
    Gemini.align_timestamps [⟨"a", 0, 0, none, none, none⟩] 10
      = [⟨"a", 0, 0, none, none, none⟩] ∧
    Gemini.align_timestamps [⟨"a", 9999 / 500, 20, none, none, none⟩] 10
      = [⟨"a", 10, 10, none, none, none⟩] ∧
    Gemini.align_timestamps [⟨"a", 0, 3 / 250, none, none, none⟩] (3 / 500)
      = [⟨"a", 0, 1 / 100, none, none, none⟩] := by
  refine ⟨?_, ?_, ?_⟩ <;> with_unfolding_all decide

/-- C4 (amended): for a non-empty segment list over a positive duration `d`
that is a whole number of centiseconds, when every segment satisfies
`start_time < end_time` and `start_time ≤ d`: if some end overshoots
`1.05 * d` or some start is negative, every returned segment has timestamps
in `[0, d]` with `start_time ≤ end_time` (the 2-decimal rounding can
produce equality); otherwise the input is returned unchanged (so ends up to
`1.05 * d` and degenerate segments pass through).  In particular a result
whose segments end at `1.5 *` duration is rescaled to fit exactly. -/
theorem C4_align_timestamps_aligned :
    (∀ (segments : List TranscriptionSegment) (d : ℚ) (k : ℤ),
      segments ≠ [] → 0 < d → 100 * d = (k : ℚ) →
      (∀ s ∈ segments, s.start_time < s.end_time ∧ s.start_time ≤ d) →
      ((∃ s ∈ segments, d * (21 / 20) < s.end_time) ∨
          (∃ s ∈ segments, s.start_time < 0) →
        ∀ s ∈ Gemini.align_timestamps segments d,
          0 ≤ s.start_time ∧ s.start_time ≤ s.end_time ∧ s.end_time ≤ d) ∧
      ((∀ s ∈ segments, s.end_time ≤ d * (21 / 20)) ∧
          (∀ s ∈ segments, 0 ≤ s.start_time) →
        Gemini.align_timestamps segments d = segments)) ∧
    Gemini.align_timestamps
        [⟨"a", 0, 15 / 2, none, none, none⟩, ⟨"b", 15 / 2, 15, none, none, none⟩]
        10
      = [⟨"a", 0, 5, none, none, none⟩, ⟨"b", 5, 10, none, none, none⟩] := by
  constructor
  · intro segments d k hne hd hk hseg
    obtain ⟨s0, rest, rfl⟩ : ∃ s0 rest, segments = s0 :: rest := by
      cases segments with
      | nil => exact absurd rfl hne
      | cons a t => exact ⟨a, t, rfl⟩
    constructor
    · intro htrig s hs
      have hcond : ¬ (¬ d * (21 / 20) < maxEnd s0 rest ∧
          ¬ minStart s0 rest < 0) := by
        rcases htrig with ⟨b, hb, hbe⟩ | ⟨b, hb, hbs⟩
        · exact fun h => h.1 (lt_of_lt_of_le hbe (maxEnd_ge s0 rest b hb))
        · exact fun h => h.2 (lt_of_le_of_lt (minStart_le s0 rest b hb) hbs)
      rw [Gemini.align_timestamps, if_neg hcond] at hs
      obtain ⟨t, ht, rfl⟩ := List.mem_map.mp hs
      obtain ⟨hts, htd⟩ := hseg t ht
      exact alignSeg_bounds d (alignScale d (maxEnd s0 rest)) t hd
        (alignScale_start_le hd htd (le_trans hts.le (maxEnd_ge s0 rest t ht)))
        k hk
    · intro ⟨hend, hstart⟩
      rw [Gemini.align_timestamps, if_pos ?_]
      constructor
      · obtain ⟨b, hb, he⟩ := maxEnd_mem s0 rest
        rw [he]
        exact not_lt.mpr (hend b hb)
      · obtain ⟨b, hb, he⟩ := minStart_mem s0 rest
        rw [he]
        exact not_lt.mpr (hstart b hb)
  · with_unfolding_all decide

/-- C4 witness: the amended statement applied on the two-segment chunk
whose provider ends at `1.5 *` duration (`d = 10`, last end 15). -/
theorem C4_align_timestamps_aligned_witness :
    ∀ s ∈ Gemini.align_timestamps
        [⟨"a", 0, 15 / 2, none, none, none⟩, ⟨"b", 15 / 2, 15, none, none, none⟩]
        10,
      0 ≤ s.start_time ∧ s.start_time ≤ s.end_time ∧ s.end_time ≤ 10 := by
  refine (C4_align_timestamps_aligned.1
    [⟨"a", 0, 15 / 2, none, none, none⟩, ⟨"b", 15 / 2, 15, none, none, none⟩]
    10 1000 (by simp) (by norm_num) (by norm_num)
    ?_).1 (Or.inl ⟨⟨"b", 15 / 2, 15, none, none, none⟩, by simp, by norm_num⟩)
  intro s hs
  rcases List.mem_cons.mp hs with h | h
  · subst h; norm_num
  · simp only [List.mem_singleton] at h
    subst h; norm_num

/-! ### Chunk descriptors, result dictionaries, and the worker coverage
check (`stt_service/core/chunker.py`, `stt_service/workers/tasks.py`) -/

/-- `ChunkInfo` (chunker.py lines 20-29) without the local-file fields,
which only matter for disk I/O. -/
structure ChunkInfo where
  index : ℕ
  start_time : ℚ
  end_time : ℚ
  duration : ℚ
deriving DecidableEq

/-- A provider-result segment dictionary.  `seg.get("start_time", 0)` and
`seg.get("end_time", 0)` are modelled as total fields defaulting to 0;
`seg.get("speaker_id")` may be absent or empty (Python falsy), hence
`Option`.  Word entries are `(start_time, end_time)` pairs. -/
structure RawSegment where
  speaker_id : Option String := none
  text : String := ""
  start_time : ℚ := 0
  end_time : ℚ := 0
  confidence : Option ℚ := none
  words : Option (List (ℚ × ℚ)) := none
deriving DecidableEq

/-- A per-chunk transcription result dictionary: `text` and `segments` are
the keys the coverage check and the merger read (the `metadata` key is only
logged). -/
structure ChunkResult where
  text : String := ""
  segments : List RawSegment := []
deriving DecidableEq

/-- `_check_coverage_gap` (tasks.py lines 515-552): the largest of the
first segment's start and the uncovered tail, recomputing the covered end
from clamped in-bounds segments when the last segment overflows the chunk
duration; non-positive gaps are reported as `None`, an empty segment list
as the whole duration. -/
def check_coverage_gap (result : ChunkResult) (chunk : ChunkInfo) :
    Option ℚ :=
  match result.segments with
  | [] => some chunk.duration
  | first :: rest =>
    let last_end := ((first :: rest).getLast (List.cons_ne_nil _ _)).end_time
    let remaining0 := chunk.duration - last_end
    let remaining :=
      if remaining0 < 0 then
        chunk.duration -
          (first :: rest).foldl (fun acc seg =>
            if seg.start_time ≤ chunk.duration then
              max acc (min seg.end_time chunk.duration)
            else acc) 0
      else remaining0
    let gap := max first.start_time remaining
    if 0 < gap then some gap else none

/-- The coverage gap as the specification words it: the larger of the first
segment's start time and the duration minus the last covered end, where the
last covered end is the last segment's end or — when that end overflows the
duration — the largest in-bounds clamped segment end; an empty segment list
yields the whole duration, and a non-positive gap is `None`. -/
def coverage_gap_spec (result : ChunkResult) (chunk : ChunkInfo) :
    Option ℚ :=
  match result.segments with
  | [] => some chunk.duration
  | first :: rest =>
    let lastCovered :=
      if ((first :: rest).getLast (List.cons_ne_nil _ _)).end_time
          ≤ chunk.duration then
        ((first :: rest).getLast (List.cons_ne_nil _ _)).end_time
      else
        (first :: rest).foldl (fun acc seg =>
          if seg.start_time ≤ chunk.duration then
            max acc (min seg.end_time chunk.duration)
          else acc) 0
    let gap := max first.start_time (chunk.duration - lastCovered)
    if 0 < gap then some gap else none

/-- `gap_threshold = max(5.0, chunk.duration * 0.2)` (tasks.py line 248). -/
def gap_threshold (chunk : ChunkInfo) : ℚ :=
  max 5 (chunk.duration * (1 / 5))

/-- The worker retry condition `if coverage_gap and coverage_gap >
gap_threshold` (tasks.py line 250), with Python float truthiness of the
gap. -/
def coverage_retry_triggered (gap : Option ℚ) (chunk : ChunkInfo) : Bool :=
  match gap with
  | none => false
  | some g => decide (g ≠ 0) && decide (gap_threshold chunk < g)

/-- C5: the coverage-gap computation agrees with the spec's description
everywhere, and on the two spec scenarios: a 60 s chunk covered only by
`(0, 40)` has gap 20 exceeding the threshold `max(5, 0.2 * 60) = 12` and
triggers a retransmit; a 60 s chunk covered by `(0, 50), (50, 70)` has its
overflow clamped and gap `None`. -/
theorem C5_check_coverage_gap :
    (∀ (result : ChunkResult) (chunk : ChunkInfo),
      check_coverage_gap result chunk = coverage_gap_spec result chunk) ∧
    gap_threshold ⟨0, 0, 60, 60⟩ = 12 ∧
    check_coverage_gap ⟨"", [⟨none, "", 0, 40, none, none⟩]⟩ ⟨0, 0, 60, 60⟩
      = some 20 ∧
    coverage_retry_triggered (some 20) ⟨0, 0, 60, 60⟩ = true ∧
    check_coverage_gap
        ⟨"", [⟨none, "", 0, 50, none, none⟩, ⟨none, "", 50, 70, none, none⟩]⟩
        ⟨0, 0, 60, 60⟩
      = none := by
  refine ⟨?_, by with_unfolding_all decide, by with_unfolding_all decide,
    by with_unfolding_all decide, by with_unfolding_all decide⟩
  intro result chunk
  obtain ⟨text, segs⟩ := result
  cases segs with
  | nil => rfl
  | cons first rest =>
    show (let last_end :=
        ((first :: rest).getLast (List.cons_ne_nil _ _)).end_time
      let remaining0 := chunk.duration - last_end
      let remaining :=
        if remaining0 < 0 then
          chunk.duration -
            (first :: rest).foldl (fun acc seg =>
              if seg.start_time ≤ chunk.duration then
                max acc (min seg.end_time chunk.duration)
              else acc) 0
        else remaining0
      let gap := max first.start_time remaining
      if 0 < gap then some gap else none) = _
    dsimp only
    by_cases h : chunk.duration -
        ((first :: rest).getLast (List.cons_ne_nil _ _)).end_time < 0
    · rw [if_pos h]
      show _ = (let lastCovered :=
          if ((first :: rest).getLast (List.cons_ne_nil _ _)).end_time
              ≤ chunk.duration then
            ((first :: rest).getLast (List.cons_ne_nil _ _)).end_time
          else
            (first :: rest).foldl (fun acc seg =>
              if seg.start_time ≤ chunk.duration then
                max acc (min seg.end_time chunk.duration)
              else acc) 0
        let gap := max first.start_time (chunk.duration - lastCovered)
        if 0 < gap then some gap else none)
      dsimp only
      rw [if_neg (show ¬ ((first :: rest).getLast
        (List.cons_ne_nil _ _)).end_time ≤ chunk.duration by linarith)]
    · rw [if_neg h]
      show _ = (let lastCovered :=
          if ((first :: rest).getLast (List.cons_ne_nil _ _)).end_time
              ≤ chunk.duration then
            ((first :: rest).getLast (List.cons_ne_nil _ _)).end_time
          else
            (first :: rest).foldl (fun acc seg =>
              if seg.start_time ≤ chunk.duration then
                max acc (min seg.end_time chunk.duration)
              else acc) 0
        let gap := max first.start_time (chunk.duration - lastCovered)
        if 0 < gap then some gap else none)
      dsimp only
      rw [if_pos (show ((first :: rest).getLast
        (List.cons_ne_nil _ _)).end_time ≤ chunk.duration by linarith)]

/-! ### Retry engine (`stt_service/core/retry.py`) -/

/-- `RetryConfig` (retry.py lines 23-31). -/
structure RetryConfig where
  max_retries : ℕ := 5
  base_delay : ℚ := 1
  max_delay : ℚ := 60
  exponential_base : ℚ := 2
  jitter_max : ℚ := 1
deriving DecidableEq

/-- The exceptions `retry_with_backoff` distinguishes: `RateLimitError`
(with optional `retry_after`), `ProviderError` (with its `retryable` flag),
and any other exception. -/
inductive STTError
  | rateLimit (retry_after : Option ℚ)
  | provider (retryable : Bool)
  | other
deriving DecidableEq

/-- One call of the wrapped async function either returns or raises. -/
inductive Outcome (α : Type)
  | ok (a : α)
  | err (e : STTError)

/-- `calculate_delay` (retry.py lines 45-71); the `random.uniform(0,
jitter_max)` draw is passed in as `jitter`. -/
def calculate_delay (attempt : ℕ) (config : RetryConfig)
    (rate_limit_delay : Option ℚ) (jitter : ℚ) : ℚ :=
  match rate_limit_delay with
  | some r => r + jitter
  | none =>
    min config.max_delay
      (config.base_delay * config.exponential_base ^ attempt) + jitter

/-- The observable outcome of a `retry_with_backoff` run: the returned
value or raised exception, the number of calls made to the wrapped
function, and the sleeps performed between attempts. -/
structure RetryTrace (α : Type) where
  result : Except STTError α
  calls : ℕ
  delays : List ℚ

/-- The `for attempt in range(config.max_retries + 1)` loop of
`retry_with_backoff` (retry.py lines 103-212): `fn k` is the outcome of
the `k`-th call and `jitter k` the `k`-th uniform draw; `remaining` counts
the iterations the `range` still allows.  A rate-limit error retries with
the `retry_after`-aware delay, re-raising at the last attempt; a
non-retryable provider error propagates immediately; every other error
retries with the backoff delay, re-raising at the last attempt.  The
rate-limiter bookkeeping (`acquire`, `report_success`,
`report_rate_limit`) does not affect the result and is not modelled; the
fall-through `raise` after the loop is dead code, reachable only with
`remaining = 0`. -/
def retryGo {α : Type} (fn : ℕ → Outcome α) (config : RetryConfig)
    (jitter : ℕ → ℚ) : ℕ → ℕ → RetryTrace α
  | 0, _ => ⟨.error .other, 0, []⟩
  | remaining + 1, attempt =>
    match fn attempt with
    | .ok a => ⟨.ok a, 1, []⟩
    | .err e =>
      match e with
      | .rateLimit ra =>
        if config.max_retries ≤ attempt then
          ⟨.error (.rateLimit ra), 1, []⟩
        else
          let d := calculate_delay attempt config ra (jitter attempt)
          let rest := retryGo fn config jitter remaining (attempt + 1)
          ⟨rest.result, rest.calls + 1, d :: rest.delays⟩
      | .provider retryable =>
        if ¬ retryable then ⟨.error (.provider retryable), 1, []⟩
        else if config.max_retries ≤ attempt then
          ⟨.error (.provider retryable), 1, []⟩
        else
          let d := calculate_delay attempt config none (jitter attempt)
          let rest := retryGo fn config jitter remaining (attempt + 1)
          ⟨rest.result, rest.calls + 1, d :: rest.delays⟩
      | .other =>
        if config.max_retries ≤ attempt then ⟨.error .other, 1, []⟩
        else
          let d := calculate_delay attempt config none (jitter attempt)
          let rest := retryGo fn config jitter remaining (attempt + 1)
          ⟨rest.result, rest.calls + 1, d :: rest.delays⟩

/-- `retry_with_backoff` (retry.py lines 74-212). -/
def retry_with_backoff {α : Type} (fn : ℕ → Outcome α)
    (config : RetryConfig) (jitter : ℕ → ℚ) : RetryTrace α :=
  retryGo fn config jitter (config.max_retries + 1) 0

/-- The delay the claim predicts before the retry that follows attempt
`n`: `retry_after + jitter` when the attempt raised a rate limit carrying
`retry_after`, else `min(max_delay, base_delay * exponential_base ^ n) +
jitter`. -/
def claimedDelay {α : Type} (fn : ℕ → Outcome α) (config : RetryConfig)
    (jitter : ℕ → ℚ) (n : ℕ) : ℚ :=
  match fn n with
  | .err (.rateLimit (some r)) => r + jitter n
  | _ =>
    min config.max_delay
      (config.base_delay * config.exponential_base ^ n) + jitter n

theorem retryGo_calls_le {α : Type} (fn : ℕ → Outcome α)
    (config : RetryConfig) (jitter : ℕ → ℚ) :
    ∀ (remaining attempt : ℕ),
      (retryGo fn config jitter remaining attempt).calls ≤ remaining := by
  intro remaining
  induction remaining with
  | zero =>
    intro attempt
    rw [retryGo]
  | succ rem ih =>
    intro attempt
    rw [retryGo]
    cases fn attempt with
    | ok a => dsimp only; omega
    | err e =>
      cases e with
      | rateLimit ra =>
        dsimp only
        split_ifs <;> dsimp only <;>
          first
          | omega
          | exact Nat.succ_le_succ (ih (attempt + 1))
      | provider retryable =>
        dsimp only
        split_ifs <;> dsimp only <;>
          first
          | omega
          | exact Nat.succ_le_succ (ih (attempt + 1))
      | other =>
        dsimp only
        split_ifs <;> dsimp only <;>
          first
          | omega
          | exact Nat.succ_le_succ (ih (attempt + 1))

theorem retryGo_calls_pos {α : Type} (fn : ℕ → Outcome α)
    (config : RetryConfig) (jitter : ℕ → ℚ) (remaining attempt : ℕ) :
    1 ≤ (retryGo fn config jitter (remaining + 1) attempt).calls := by
  rw [retryGo]
  cases fn attempt with
  | ok a => dsimp only; omega
  | err e =>
    cases e with
    | rateLimit ra => dsimp only; split_ifs <;> dsimp only <;> omega
    | provider retryable => dsimp only; split_ifs <;> dsimp only <;> omega
    | other => dsimp only; split_ifs <;> dsimp only <;> omega

/-- A non-retryable provider error at attempt `k` (all earlier attempts
failing retryably) propagates immediately: the loop stops with exactly
`k + 1 - attempt` calls. -/
theorem retryGo_provider_false {α : Type} (fn : ℕ → Outcome α)
    (config : RetryConfig) (jitter : ℕ → ℚ) :
    ∀ (remaining attempt k : ℕ),
      attempt + remaining = config.max_retries →
      attempt ≤ k → k ≤ config.max_retries →
      (∀ j, attempt ≤ j → j < k →
        ∃ e, fn j = .err e ∧ e ≠ .provider false) →
      fn k = .err (.provider false) →
      (retryGo fn config jitter (remaining + 1) attempt).result
          = .error (.provider false) ∧
      (retryGo fn config jitter (remaining + 1) attempt).calls
          = k + 1 - attempt := by
  intro remaining
  induction remaining with
  | zero =>
    intro attempt k hinv hk1 hk2 hj hfk
    have heq : attempt = k := by omega
    have hfa : fn attempt = .err (.provider false) := by rw [heq]; exact hfk
    rw [retryGo]
    simp only [hfa]
    rw [if_pos (by simp)]
    refine ⟨rfl, ?_⟩
    dsimp only
    omega
  | succ rem ih =>
    intro attempt k hinv hk1 hk2 hj hfk
    rcases Nat.eq_or_lt_of_le hk1 with heq | hlt
    · have hfa : fn attempt = .err (.provider false) := by rw [heq]; exact hfk
      rw [retryGo]
      simp only [hfa]
      rw [if_pos (by simp)]
      refine ⟨rfl, ?_⟩
      dsimp only
      omega
    · obtain ⟨e, hfa, hne⟩ := hj attempt le_rfl hlt
      have hstop : ¬ config.max_retries ≤ attempt := by omega
      have hrec := ih (attempt + 1) k (by omega) hlt hk2
        (fun j hj1 hj2 => hj j (by omega) hj2) hfk
      have h2 := hrec.2
      rw [retryGo]
      simp only [hfa]
      cases e with
      | rateLimit ra =>
        dsimp only
        rw [if_neg hstop]
        exact ⟨hrec.1, by dsimp only; omega⟩
      | provider b =>
        cases b with
        | false => exact absurd rfl hne
        | true =>
          dsimp only
          rw [if_neg (by simp), if_neg hstop]
          exact ⟨hrec.1, by dsimp only; omega⟩
      | other =>
        dsimp only
        rw [if_neg hstop]
        exact ⟨hrec.1, by dsimp only; omega⟩

/-- When every attempt up to `max_retries` raises a retryable error, the
loop makes all `remaining + 1` calls and re-raises the error of the last
attempt. -/
theorem retryGo_exhaust {α : Type} (fn : ℕ → Outcome α)
    (config : RetryConfig) (jitter : ℕ → ℚ) :
    ∀ (remaining attempt : ℕ),
      attempt + remaining = config.max_retries →
      (∀ j, attempt ≤ j → j ≤ config.max_retries →
        ∃ e, fn j = .err e ∧ e ≠ .provider false) →
      ∃ e, fn config.max_retries = .err e ∧
        (retryGo fn config jitter (remaining + 1) attempt).result
            = .error e ∧
        (retryGo fn config jitter (remaining + 1) attempt).calls
            = remaining + 1 := by
  intro remaining
  induction remaining with
  | zero =>
    intro attempt hinv hj
    have heq : attempt = config.max_retries := by omega
    obtain ⟨e, hfa, hne⟩ := hj attempt le_rfl (by omega)
    refine ⟨e, by rw [← heq]; exact hfa, ?_⟩
    rw [retryGo]
    simp only [hfa]
    cases e with
    | rateLimit ra =>
      dsimp only
      rw [if_pos (by omega)]
      exact ⟨rfl, rfl⟩
    | provider b =>
      cases b with
      | false => exact absurd rfl hne
      | true =>
        dsimp only
        rw [if_neg (by simp), if_pos (by omega)]
        exact ⟨rfl, rfl⟩
    | other =>
      dsimp only
      rw [if_pos (by omega)]
      exact ⟨rfl, rfl⟩
  | succ rem ih =>
    intro attempt hinv hj
    obtain ⟨e, hfa, hne⟩ := hj attempt le_rfl (by omega)
    obtain ⟨e2, hfe2, hres, hcalls⟩ := ih (attempt + 1) (by omega)
      (fun j hj1 hj2 => hj j (by omega) hj2)
    have hstop : ¬ config.max_retries ≤ attempt := by omega
    refine ⟨e2, hfe2, ?_⟩
    rw [retryGo]
    simp only [hfa]
    cases e with
    | rateLimit ra =>
      dsimp only
      rw [if_neg hstop]
      exact ⟨hres, by dsimp only; omega⟩
    | provider b =>
      cases b with
      | false => exact absurd rfl hne
      | true =>
        dsimp only
        rw [if_neg (by simp), if_neg hstop]
        exact ⟨hres, by dsimp only; omega⟩
    | other =>
      dsimp only
      rw [if_neg hstop]
      exact ⟨hres, by dsimp only; omega⟩

/-- Shift lemma gluing the head delay to the delays of the recursive call. -/
theorem delays_cons_eq {α : Type} (fn : ℕ → Outcome α) (config : RetryConfig)
    (jitter : ℕ → ℚ) (attempt c : ℕ) (hc : 1 ≤ c)
    (d : ℚ) (hd : d = claimedDelay fn config jitter attempt) :
    d :: (List.range (c - 1)).map
        (fun i => claimedDelay fn config jitter (attempt + 1 + i)) =
      (List.range (c + 1 - 1)).map
        (fun i => claimedDelay fn config jitter (attempt + i)) := by
  obtain ⟨c2, rfl⟩ : ∃ c2, c = c2 + 1 := ⟨c - 1, by omega⟩
  have hhead : d = claimedDelay fn config jitter (attempt + 0) := by
    rw [hd, Nat.add_zero]
  have htail :
      List.map (fun i => claimedDelay fn config jitter (attempt + 1 + i))
        (List.range c2) =
      List.map ((fun i => claimedDelay fn config jitter (attempt + i))
        ∘ Nat.succ) (List.range c2) := by
    apply List.map_congr_left
    intro i _
    simp only [Function.comp_apply]
    congr 1
    omega
  simp only [Nat.add_sub_cancel]
  rw [List.range_succ_eq_map, List.map_cons, List.map_map]
  rw [← hhead, ← htail]

/-- Every sleep of a run follows the claimed delay formula: the delay list
is exactly one entry per retried attempt. -/
theorem retryGo_delays {α : Type} (fn : ℕ → Outcome α) (config : RetryConfig)
    (jitter : ℕ → ℚ) :
    ∀ (remaining attempt : ℕ), attempt + remaining = config.max_retries →
      (retryGo fn config jitter (remaining + 1) attempt).delays =
        (List.range
          ((retryGo fn config jitter (remaining + 1) attempt).calls - 1)).map
          (fun i => claimedDelay fn config jitter (attempt + i)) := by
  intro remaining
  induction remaining with
  | zero =>
    intro attempt hinv
    rw [retryGo]
    cases hfa : fn attempt with
    | ok a => simp
    | err e =>
      cases e with
      | rateLimit ra =>
        dsimp only
        rw [if_pos (by omega)]
        simp
      | provider b =>
        cases b with
        | false =>
          dsimp only
          rw [if_pos (by simp)]
          simp
        | true =>
          dsimp only
          rw [if_neg (by simp), if_pos (by omega)]
          simp
      | other =>
        dsimp only
        rw [if_pos (by omega)]
        simp
  | succ rem ih =>
    intro attempt hinv
    have hstop : ¬ config.max_retries ≤ attempt := by omega
    have hrec := ih (attempt + 1) (by omega)
    have hpos := retryGo_calls_pos fn config jitter rem (attempt + 1)
    rw [retryGo]
    cases hfa : fn attempt with
    | ok a => simp
    | err e =>
      cases e with
      | rateLimit ra =>
        dsimp only
        rw [if_neg hstop]
        dsimp only
        rw [hrec]
        refine delays_cons_eq fn config jitter attempt _ hpos _ ?_
        unfold claimedDelay calculate_delay
        rw [hfa]
        cases ra <;> rfl
      | provider b =>
        cases b with
        | false =>
          dsimp only
          rw [if_pos (by simp)]
          simp
        | true =>
          dsimp only
          rw [if_neg (by simp), if_neg hstop]
          dsimp only
          rw [hrec]
          refine delays_cons_eq fn config jitter attempt _ hpos _ ?_
          unfold claimedDelay calculate_delay
          rw [hfa]
      | other =>
        dsimp only
        rw [if_neg hstop]
        dsimp only
        rw [hrec]
        refine delays_cons_eq fn config jitter attempt _ hpos _ ?_
        unfold claimedDelay calculate_delay
        rw [hfa]

/-- C6: for every retry configuration, outcome sequence and jitter draws:
`retry_with_backoff` calls the wrapped function at most `max_retries + 1`
times; a `ProviderError` with `retryable = false` (reached after retryable
failures) propagates immediately with no further attempt; when every
attempt raises a retryable error (rate limit, retryable provider error, or
unexpected exception) the loop exhausts all calls and re-raises the last
exception; and the delay before each retry equals `retry_after + jitter`
when the attempt raised a rate limit carrying `retry_after`, else
`min(max_delay, base_delay * exponential_base ^ attempt) + jitter`, with
`jitter` the uniform draw from `[0, jitter_max]`. -/
theorem C6_retry_with_backoff {α : Type} (fn : ℕ → Outcome α)
    (config : RetryConfig) (jitter : ℕ → ℚ) :
    (retry_with_backoff fn config jitter).calls ≤ config.max_retries + 1 ∧
    (∀ k ≤ config.max_retries,
      (∀ j < k, ∃ e, fn j = .err e ∧ e ≠ .provider false) →
      fn k = .err (.provider false) →
      (retry_with_backoff fn config jitter).result
          = .error (.provider false) ∧
      (retry_with_backoff fn config jitter).calls = k + 1) ∧
    ((∀ j ≤ config.max_retries,
        ∃ e, fn j = .err e ∧ e ≠ .provider false) →
      ∃ e, fn config.max_retries = .err e ∧
        (retry_with_backoff fn config jitter).result = .error e ∧
        (retry_with_backoff fn config jitter).calls
          = config.max_retries + 1) ∧
    (retry_with_backoff fn config jitter).delays =
      (List.range ((retry_with_backoff fn config jitter).calls - 1)).map
        (fun i =>
          match fn i with
          | .err (.rateLimit (some r)) => r + jitter i
          | _ => min config.max_delay
              (config.base_delay * config.exponential_base ^ i)
              + jitter i) := by
  refine ⟨retryGo_calls_le fn config jitter _ 0, ?_, ?_, ?_⟩
  · intro k hk hj hfk
    have h := retryGo_provider_false fn config jitter config.max_retries 0 k
      (by omega) (Nat.zero_le k) hk (fun j _ hj2 => hj j hj2) hfk
    constructor
    · show (retryGo fn config jitter (config.max_retries + 1) 0).result = _
      exact h.1
    · show (retryGo fn config jitter (config.max_retries + 1) 0).calls = _
      have h2 := h.2
      omega
  · intro hj
    exact retryGo_exhaust fn config jitter config.max_retries 0 (by omega)
      (fun j _ hj2 => hj j hj2)
  · have h := retryGo_delays fn config jitter config.max_retries 0 (by omega)
    show (retryGo fn config jitter (config.max_retries + 1) 0).delays =
      (List.range
        ((retryGo fn config jitter (config.max_retries + 1) 0).calls - 1)).map _
    rw [h]
    apply List.map_congr_left
    intro i _
    rw [Nat.zero_add]
    rfl

/-- Concrete run for the C6 witness: an unexpected error at attempt 0,
then a non-retryable provider error. -/
def fnW : ℕ → Outcome ℕ :=
  fun k => if k = 0 then .err .other else .err (.provider false)

/-- C6 witness: with `max_retries = 2`, the run of `fnW` stops after
exactly two calls, propagating the non-retryable provider error raised at
attempt 1. -/
theorem C6_retry_with_backoff_witness :
    (retry_with_backoff fnW ⟨2, 1, 60, 2, 1⟩ (fun _ => 0)).result
        = .error (.provider false) ∧
    (retry_with_backoff fnW ⟨2, 1, 60, 2, 1⟩ (fun _ => 0)).calls = 2 := by
  have h := (C6_retry_with_backoff fnW ⟨2, 1, 60, 2, 1⟩ (fun _ => 0)).2.1 1
    (by norm_num)
    (by
      intro j hj
      have hj0 : j = 0 := by omega
      subst hj0
      exact ⟨.other, rfl, by decide⟩)
    (by rfl)
  exact h

/-! ### Orchestrator job lifecycle
(`stt_service/core/orchestrator.py`, `stt_service/db/repositories/job.py`,
`stt_service/db/models.py`, `stt_service/services/storage.py`)

Database rows and blob storage are modelled explicitly; `id` is a primary
key, so at most one row carries a given id. -/

/-- `JobStatus` (models.py lines 32-40). -/
inductive JobStatus
  | pending
  | uploaded
  | processing
  | completed
  | failed
  | cancelled
deriving DecidableEq

/-- A `jobs` row: the status plus the storage keys `delete_job` collects. -/
structure JobRow where
  id : String
  status : JobStatus
  s3_original_key : Option String := none
  s3_result_key : Option String := none
deriving DecidableEq

/-- A `chunks` row: the foreign key to its job (`ondelete` cascade via the
`cascade="all, delete-orphan"` relationship of models.py line 220) and the
chunk's storage key. -/
structure ChunkRow where
  job_id : String
  index : ℕ
  s3_chunk_key : Option String := none
deriving DecidableEq

/-- The state `delete_job` and `cancel_job` touch: job rows, chunk rows,
and the set of blob keys. -/
structure SystemState where
  jobs : List JobRow
  chunks : List ChunkRow
  blobs : List String
deriving DecidableEq

/-- Errors raised by the orchestrator operations: `JobNotFoundError` from
`JobRepository.get_by_id` (job.py line 52) and the `ValueError` of
`cancel_job` (orchestrator.py line 312). -/
inductive OrchestratorError
  | jobNotFound
  | cannotCancel
deriving DecidableEq

/-- `JobOrchestrator.delete_job` (orchestrator.py lines 323-361), composed
with `JobRepository.delete` (job.py lines 205-209) and
`StorageService.delete_files`: load the job (raising `JobNotFoundError`
when absent), collect the original, result and chunk keys, delete them
from blob storage, and delete the row (chunks cascade).  Returns the new
state and the number of deleted files. -/
def delete_job (st : SystemState) (job_id : String) :
    Except OrchestratorError (SystemState × ℕ) :=
  match st.jobs.find? (fun j => j.id = job_id) with
  | none => .error .jobNotFound
  | some job =>
    let chunkKeys := (st.chunks.filter (fun c => c.job_id = job_id)).filterMap
      (fun c => c.s3_chunk_key)
    let keys := (job.s3_original_key.toList ++ job.s3_result_key.toList)
      ++ chunkKeys
    .ok (⟨st.jobs.filter (fun j => ¬ j.id = job_id),
          st.chunks.filter (fun c => ¬ c.job_id = job_id),
          st.blobs.filter (fun b => ¬ b ∈ keys)⟩,
         keys.length)

/-- `JobOrchestrator.cancel_job` (orchestrator.py lines 300-321): load the
job (raising `JobNotFoundError` when absent), raise `ValueError` when the
status is `COMPLETED` or `CANCELLED`, otherwise set the status to
`CANCELLED`. -/
def cancel_job (st : SystemState) (job_id : String) :
    Except OrchestratorError SystemState :=
  match st.jobs.find? (fun j => j.id = job_id) with
  | none => .error .jobNotFound
  | some job =>
    if job.status = .completed ∨ job.status = .cancelled then
      .error .cannotCancel
    else
      .ok ⟨st.jobs.map (fun j =>
            if j.id = job_id then { j with status := .cancelled } else j),
          st.chunks, st.blobs⟩

/-- C7 counterexample: deletion is not idempotent.  Deleting job `"j"`
succeeds and removes its row, chunks and blobs, but deleting it a second
time raises `JobNotFoundError` instead of succeeding without error. -/
theorem C7_delete_job_counterexample :
    delete_job
        ⟨[⟨"j", .completed, some "k1", none⟩], [⟨"j", 0, some "k2"⟩],
          ["k1", "k2"]⟩ "j"
      = .ok (⟨[], [], []⟩, 2) ∧
    delete_job ⟨[], [], []⟩ "j" = .error .jobNotFound := by
  constructor <;> rfl

/-- C7 (amended): deleting an existing job removes its chunk rows
(cascade) and its objects in blob storage, but deletion is not idempotent:
a second call (or a call for a job that does not exist) raises
`JobNotFoundError`. -/
theorem C7_delete_job_cascade (st : SystemState) (job_id : String)
    (job : JobRow)
    (hfind : st.jobs.find? (fun j => j.id = job_id) = some job) :
    ∃ st2 n, delete_job st job_id = .ok (st2, n) ∧
      (∀ j ∈ st2.jobs, j.id ≠ job_id) ∧
      (∀ c ∈ st2.chunks, c.job_id ≠ job_id) ∧
      (∀ k ∈ (job.s3_original_key.toList ++ job.s3_result_key.toList) ++
          (st.chunks.filter (fun c => c.job_id = job_id)).filterMap
            (fun c => c.s3_chunk_key),
        k ∉ st2.blobs) ∧
      delete_job st2 job_id = .error .jobNotFound := by
  refine ⟨⟨st.jobs.filter (fun j => ¬ j.id = job_id),
      st.chunks.filter (fun c => ¬ c.job_id = job_id),
      st.blobs.filter (fun b => ¬ b ∈
        (job.s3_original_key.toList ++ job.s3_result_key.toList) ++
        (st.chunks.filter (fun c => c.job_id = job_id)).filterMap
          (fun c => c.s3_chunk_key))⟩,
    ((job.s3_original_key.toList ++ job.s3_result_key.toList) ++
      (st.chunks.filter (fun c => c.job_id = job_id)).filterMap
        (fun c => c.s3_chunk_key)).length,
    ?_, ?_, ?_, ?_, ?_⟩
  · rw [delete_job, hfind]
  · intro j hj
    simpa using (List.mem_filter.mp hj).2
  · intro c hc
    simpa using (List.mem_filter.mp hc).2
  · intro k hk hmem
    exact (by simpa using (List.mem_filter.mp hmem).2 : k ∉ _) hk
  · rw [delete_job]
    rw [List.find?_eq_none.mpr]
    intro j hj
    simpa using (List.mem_filter.mp hj).2
/-- C7 witness: the amended statement on a one-job state — the first
deletion succeeds, the second raises `JobNotFoundError`. -/
theorem C7_delete_job_cascade_witness :
    ∃ st2 n,
      delete_job
          ⟨[⟨"j", .completed, some "k1", none⟩], [⟨"j", 0, some "k2"⟩],
            ["k1", "k2"]⟩ "j"
        = .ok (st2, n) ∧
      delete_job st2 "j" = .error .jobNotFound := by
  obtain ⟨st2, n, h1, _, _, _, h5⟩ := C7_delete_job_cascade
    ⟨[⟨"j", .completed, some "k1", none⟩], [⟨"j", 0, some "k2"⟩],
      ["k1", "k2"]⟩ "j" ⟨"j", .completed, some "k1", none⟩
    (by rfl)
  exact ⟨st2, n, h1, h5⟩

/-- C8 counterexample: `cancel_job` on a job in the terminal state
`failed` does not raise an illegal-state error; it transitions the job to
`cancelled`. -/
theorem C8_cancel_job_counterexample :
    cancel_job ⟨[⟨"j", .failed, none, none⟩], [], []⟩ "j"
      = .ok ⟨[⟨"j", .cancelled, none, none⟩], [], []⟩ := by
  rfl

/-- C8 (amended): `cancel_job` raises the illegal-state error exactly for
jobs in `completed` or `cancelled`; every other job — including one in the
terminal state `failed` — is transitioned to `cancelled`, so the walk
`failed → cancelled` is also allowed, in addition to
`failed → processing` (retry). -/
theorem C8_cancel_job_guard (st : SystemState) (job_id : String)
    (job : JobRow)
    (hfind : st.jobs.find? (fun j => j.id = job_id) = some job) :
    ((job.status = .completed ∨ job.status = .cancelled) →
      cancel_job st job_id = .error .cannotCancel) ∧
    (job.status ≠ .completed → job.status ≠ .cancelled →
      cancel_job st job_id =
        .ok ⟨st.jobs.map (fun j =>
              if j.id = job_id then { j with status := .cancelled } else j),
            st.chunks, st.blobs⟩) := by
  constructor
  · intro h
    rw [cancel_job, hfind]
    dsimp only
    rw [if_pos h]
  · intro h1 h2
    rw [cancel_job, hfind]
    dsimp only
    rw [if_neg (by tauto)]

/-- C8 witness: the amended statement on a one-job state in `failed` — the
cancel succeeds and sets the status to `cancelled`. -/
theorem C8_cancel_job_guard_witness :
    cancel_job ⟨[⟨"j", .failed, none, none⟩], [], []⟩ "j"
      = .ok ⟨[⟨"j", .failed, none, none⟩].map (fun j =>
            if j.id = "j" then { j with status := .cancelled } else j),
          [], []⟩ := by
  exact (C8_cancel_job_guard ⟨[⟨"j", .failed, none, none⟩], [], []⟩ "j"
    ⟨"j", .failed, none, none⟩ (by rfl)).2
    (by decide) (by decide)

/-! ### Rate limiter (`stt_service/services/rate_limiter.py`)

`time.monotonic()` readings and the post-sleep clock are passed in as
parameters; each operation returns its value, the new bucket map, and the
list of sleeps it performed.  The per-provider `asyncio.Lock` objects are
synchronisation machinery without data content and are not modelled. -/

/-- `RateLimitState` (rate_limiter.py lines 12-26). -/
structure RateLimitState where
  tokens : ℚ
  last_update : ℚ
  max_tokens : ℚ
  refill_rate : ℚ
  adaptive_factor : ℚ := 1
deriving DecidableEq

/-- `RateLimitState.get_available_tokens` (rate_limiter.py lines 22-26). -/
def RateLimitState.get_available_tokens (b : RateLimitState) (now : ℚ) : ℚ :=
  min b.max_tokens
    (b.tokens + (now - b.last_update) * b.refill_rate * b.adaptive_factor)

/-- The `_buckets` dictionary of `RateLimiter` (rate_limiter.py line 40). -/
structure RateLimiter where
  buckets : List (String × RateLimitState)
deriving DecidableEq

/-- Python `provider in self._buckets` / `self._buckets[provider]`. -/
def RateLimiter.lookup (rl : RateLimiter) (provider : String) :
    Option RateLimitState :=
  (rl.buckets.find? (fun pb => pb.1 = provider)).map (fun pb => pb.2)

/-- Python `self._buckets[provider] = v` (dictionary assignment; ordering
of other keys is irrelevant to every lookup). -/
def RateLimiter.setBucket (rl : RateLimiter) (provider : String)
    (b : RateLimitState) : RateLimiter :=
  ⟨(rl.buckets.filter (fun pb => ¬ pb.1 = provider)) ++ [(provider, b)]⟩

/-- Python in-place mutation of the bucket looked up for `provider`. -/
def RateLimiter.updateBucket (rl : RateLimiter) (provider : String)
    (b : RateLimitState) : RateLimiter :=
  ⟨rl.buckets.map (fun pb => if pb.1 = provider then (provider, b) else pb)⟩

/-- `RateLimiter.configure_provider` (rate_limiter.py lines 52-82):
`burst_size` defaults to `max(1, rpm // 6)`, the refill rate is `rpm / 60`
tokens per second, and the adaptive factor starts at 1. -/
def RateLimiter.configure_provider (rl : RateLimiter) (provider : String)
    (requests_per_minute : ℕ) (burst_size : Option ℕ) (now : ℚ) :
    RateLimiter :=
  let burst := burst_size.getD (max 1 (requests_per_minute / 6))
  rl.setBucket provider
    ⟨(burst : ℚ), now, (burst : ℚ), (requests_per_minute : ℚ) / 60, 1⟩

/-- `RateLimiter.acquire` (rate_limiter.py lines 84-131): with no bucket
configured return 0.0 immediately; otherwise consume when enough tokens
are available, else sleep `tokens_needed / (refill_rate *
adaptive_factor)` seconds (`now2` is the clock after the sleep) and drain
the bucket.  Returns `(wait_time, new state, sleeps performed)`. -/
def RateLimiter.acquire (rl : RateLimiter) (provider : String) (tokens : ℚ)
    (now now2 : ℚ) : ℚ × RateLimiter × List ℚ :=
  match rl.lookup provider with
  | none => (0, rl, [])
  | some bucket =>
    let available := bucket.get_available_tokens now
    if tokens ≤ available then
      (0, rl.updateBucket provider
        { bucket with tokens := available - tokens, last_update := now }, [])
    else
      let wait_time := (tokens - available) /
        (bucket.refill_rate * bucket.adaptive_factor)
      (wait_time,
       rl.updateBucket provider
         { bucket with tokens := 0, last_update := now2 },
       [wait_time])

/-- `RateLimiter.try_acquire` (rate_limiter.py lines 133-158): the
non-blocking variant, `true` when unconfigured or when enough tokens are
available. -/
def RateLimiter.try_acquire (rl : RateLimiter) (provider : String)
    (tokens : ℚ) (now : ℚ) : Bool × RateLimiter :=
  match rl.lookup provider with
  | none => (true, rl)
  | some bucket =>
    let available := bucket.get_available_tokens now
    if tokens ≤ available then
      (true, rl.updateBucket provider
        { bucket with tokens := available - tokens, last_update := now })
    else
      (false, rl)

/-- `RateLimiter.report_rate_limit` (rate_limiter.py lines 160-197): no-op
when unconfigured; otherwise halve the adaptive factor (floored at 0.1),
drain the bucket, and sleep `retry_after` when it is truthy and
positive. -/
def RateLimiter.report_rate_limit (rl : RateLimiter) (provider : String)
    (retry_after : Option ℚ) (now : ℚ) : RateLimiter × List ℚ :=
  match rl.lookup provider with
  | none => (rl, [])
  | some bucket =>
    let rl2 := rl.updateBucket provider
      { bucket with
          adaptive_factor := max (1 / 10) (bucket.adaptive_factor * (1 / 2)),
          tokens := 0,
          last_update := now }
    match retry_after with
    | some r => if 0 < r then (rl2, [r]) else (rl2, [])
    | none => (rl2, [])

/-- `RateLimiter.report_success` (rate_limiter.py lines 199-217): no-op
when unconfigured; otherwise restore the adaptive factor by 10 % (capped
at 1) when it is below 1. -/
def RateLimiter.report_success (rl : RateLimiter) (provider : String) :
    RateLimiter :=
  match rl.lookup provider with
  | none => rl
  | some bucket =>
    if bucket.adaptive_factor < 1 then
      rl.updateBucket provider
        { bucket with
            adaptive_factor := min 1 (bucket.adaptive_factor * (11 / 10)) }
    else rl

/-- The adaptive factor of every configured bucket lies in `[0.1, 1]`. -/
def AdaptiveFactorInv (rl : RateLimiter) : Prop :=
  ∀ pb ∈ rl.buckets,
    (1 / 10 : ℚ) ≤ pb.2.adaptive_factor ∧ pb.2.adaptive_factor ≤ 1

theorem lookup_mem {rl : RateLimiter} {provider : String}
    {b : RateLimitState} (h : rl.lookup provider = some b) :
    ∃ p, (p, b) ∈ rl.buckets := by
  unfold RateLimiter.lookup at h
  rcases hfind : rl.buckets.find? (fun pb => pb.1 = provider) with _ | pb
  · rw [hfind] at h; cases h
  · rw [hfind] at h
    have h2 : pb.2 = b := by simpa using h
    refine ⟨pb.1, ?_⟩
    rw [← h2]
    exact List.mem_of_find?_eq_some hfind

theorem AdaptiveFactorInv.updateBucket {rl : RateLimiter}
    (h : AdaptiveFactorInv rl) (provider : String) (b : RateLimitState)
    (hb : (1 / 10 : ℚ) ≤ b.adaptive_factor ∧ b.adaptive_factor ≤ 1) :
    AdaptiveFactorInv (rl.updateBucket provider b) := by
  intro pb hpb
  obtain ⟨q, hq, hfq⟩ := List.mem_map.mp hpb
  by_cases hqp : q.1 = provider
  · rw [if_pos hqp] at hfq
    rw [← hfq]
    exact hb
  · rw [if_neg hqp] at hfq
    rw [← hfq]
    exact h q hq

theorem AdaptiveFactorInv.setBucket {rl : RateLimiter}
    (h : AdaptiveFactorInv rl) (provider : String) (b : RateLimitState)
    (hb : (1 / 10 : ℚ) ≤ b.adaptive_factor ∧ b.adaptive_factor ≤ 1) :
    AdaptiveFactorInv (rl.setBucket provider b) := by
  intro pb hpb
  rcases List.mem_append.mp hpb with hpb | hpb
  · exact h pb (List.mem_filter.mp hpb).1
  · simp only [List.mem_singleton] at hpb
    rw [hpb]
    exact hb

/-- C10: for a provider that was never configured, the rate limiter
imposes no limit: `acquire` returns 0.0 immediately without sleeping,
`try_acquire` returns `true`, and `report_rate_limit` / `report_success`
leave the bucket state unchanged (and sleep nothing); and for configured
providers every operation keeps each bucket's adaptive factor within
`[0.1, 1.0]`. -/
theorem C10_rate_limiter :
    (∀ (rl : RateLimiter) (provider : String) (tokens now now2 : ℚ)
        (ra : Option ℚ),
      rl.lookup provider = none →
      rl.acquire provider tokens now now2 = (0, rl, []) ∧
      rl.try_acquire provider tokens now = (true, rl) ∧
      rl.report_rate_limit provider ra now = (rl, []) ∧
      rl.report_success provider = rl) ∧
    (∀ rl : RateLimiter, AdaptiveFactorInv rl →
      (∀ (provider : String) (rpm : ℕ) (burst : Option ℕ) (now : ℚ),
        AdaptiveFactorInv (rl.configure_provider provider rpm burst now)) ∧
      (∀ (provider : String) (tokens now now2 : ℚ),
        AdaptiveFactorInv (rl.acquire provider tokens now now2).2.1) ∧
      (∀ (provider : String) (tokens now : ℚ),
        AdaptiveFactorInv (rl.try_acquire provider tokens now).2) ∧
      (∀ (provider : String) (ra : Option ℚ) (now : ℚ),
        AdaptiveFactorInv (rl.report_rate_limit provider ra now).1) ∧
      (∀ provider : String,
        AdaptiveFactorInv (rl.report_success provider))) := by
  constructor
  · intro rl provider tokens now now2 ra hnone
    refine ⟨?_, ?_, ?_, ?_⟩
    · rw [RateLimiter.acquire, hnone]
    · rw [RateLimiter.try_acquire, hnone]
    · rw [RateLimiter.report_rate_limit, hnone]
    · rw [RateLimiter.report_success, hnone]
  · intro rl hinv
    refine ⟨?_, ?_, ?_, ?_, ?_⟩
    · intro provider rpm burst now
      exact hinv.setBucket provider _ ⟨by norm_num, le_rfl⟩
    · intro provider tokens now now2
      rw [RateLimiter.acquire]
      rcases hlk : rl.lookup provider with _ | bucket
      · exact hinv
      · obtain ⟨p, hmem⟩ := lookup_mem hlk
        have hb := hinv (p, bucket) hmem
        dsimp only
        split_ifs
        · exact hinv.updateBucket provider _ hb
        · exact hinv.updateBucket provider _ hb
    · intro provider tokens now
      rw [RateLimiter.try_acquire]
      rcases hlk : rl.lookup provider with _ | bucket
      · exact hinv
      · obtain ⟨p, hmem⟩ := lookup_mem hlk
        have hb := hinv (p, bucket) hmem
        dsimp only
        split_ifs
        · exact hinv.updateBucket provider _ hb
        · exact hinv
    · intro provider ra now
      rw [RateLimiter.report_rate_limit]
      rcases hlk : rl.lookup provider with _ | bucket
      · exact hinv
      · obtain ⟨p, hmem⟩ := lookup_mem hlk
        have hb := hinv (p, bucket) hmem
        have hnew : (1 / 10 : ℚ) ≤
            max (1 / 10) (bucket.adaptive_factor * (1 / 2)) ∧
            max (1 / 10) (bucket.adaptive_factor * (1 / 2)) ≤ 1 := by
          constructor
          · exact le_max_left _ _
          · exact max_le (by norm_num) (by linarith [hb.2])
        rcases ra with _ | r
        · exact hinv.updateBucket provider _ hnew
        · dsimp only
          split_ifs
          · exact hinv.updateBucket provider _ hnew
          · exact hinv.updateBucket provider _ hnew
    · intro provider
      rw [RateLimiter.report_success]
      rcases hlk : rl.lookup provider with _ | bucket
      · exact hinv
      · obtain ⟨p, hmem⟩ := lookup_mem hlk
        have hb := hinv (p, bucket) hmem
        dsimp only
        split_ifs
        · refine hinv.updateBucket provider _ ⟨?_, min_le_left _ _⟩
          refine le_min (by norm_num) ?_
          nlinarith [hb.1]
        · exact hinv

/-- C10 witness: the empty limiter — `acquire` for the unconfigured
provider `"gemini"` is free and stateless, and configuring it establishes
the adaptive-factor invariant. -/
theorem C10_rate_limiter_witness :
    (RateLimiter.mk []).acquire "gemini" 1 0 0
        = (0, RateLimiter.mk [], []) ∧
    AdaptiveFactorInv
      ((RateLimiter.mk []).configure_provider "gemini" 60 none 0) := by
  constructor
  · exact (C10_rate_limiter.1 (RateLimiter.mk []) "gemini" 1 0 0 none
      (by rfl)).1
  · exact (C10_rate_limiter.2 (RateLimiter.mk [])
      (by intro pb hpb; cases hpb)).1 "gemini" 60 none 0

/-! ### Transcript merger (`stt_service/core/merger.py`)

Python string primitives are modelled on the character list underlying
`String` (`lower`, `strip`, `split()`, `in`, `endswith`), so that every
definition evaluates inside the kernel. -/

/-- Default `chunking.overlap_similarity_threshold` (config.py line
131). -/
def overlap_similarity_threshold : ℚ := 4 / 5

/-- Python `str.lower()`. -/
def pyLower (s : String) : String := ⟨s.data.map Char.toLower⟩

/-- Python `str.strip()`. -/
def pyStrip (s : String) : String :=
  ⟨((s.data.dropWhile Char.isWhitespace).reverse.dropWhile
      Char.isWhitespace).reverse⟩

/-- Python `str.split()` with no argument: whitespace runs separate the
words and produce no empty tokens. -/
def splitWsGo : List Char → List Char → List String
  | [], acc => if acc = [] then [] else [⟨acc.reverse⟩]
  | c :: rest, acc =>
    if c.isWhitespace then
      if acc = [] then splitWsGo rest []
      else ⟨acc.reverse⟩ :: splitWsGo rest []
    else splitWsGo rest (c :: acc)

/-- Python `str.split()`. -/
def pySplit (s : String) : List String := splitWsGo s.data []

/-- Python `a in b` for strings: `a` occurs contiguously in `b`. -/
def isSubstring (a b : String) : Bool :=
  b.data.tails.any (fun t => a.data.isPrefixOf t)

/-- Python `text.endswith(suffix)`. -/
def pyEndsWith (t p : String) : Bool :=
  p.data.isSuffixOf t.data

/-- The character windows of width 3 of a text. -/
def windows3 : List Char → List (List Char)
  | a :: b :: c :: rest => [a, b, c] :: windows3 (b :: c :: rest)
  | _ => []

/-- `get_trigrams` inside `_texts_similar` (merger.py lines 288-293):
character trigrams of the text with spaces removed; shorter texts yield
the singleton of the whole text, an empty one the empty set. -/
def get_trigrams (text : String) : Finset (List Char) :=
  let t := text.data.filter (fun c => ¬ c = ' ')
  if t.length < 3 then
    if t = [] then ∅ else {t}
  else (windows3 t).toFinset

/-- `TranscriptMerger._texts_similar` (merger.py lines 245-304): after the
emptiness guard and case folding, any of four signals accepts — exact
match; substring containment with length ratio at least the threshold;
word-set Jaccard at least the threshold; character-trigram Jaccard at
least the threshold.  `threshold = none` selects the configured default
0.8. -/
def texts_similar (text1 text2 : String) (threshold : Option ℚ) : Bool :=
  let thr := threshold.getD overlap_similarity_threshold
  if text1 = "" ∨ text2 = "" then false
  else
    let t1 := pyStrip (pyLower text1)
    let t2 := pyStrip (pyLower text2)
    if t1 = t2 then true
    else if (isSubstring t1 t2 ∨ isSubstring t2 t1) ∧
        thr ≤ ((min t1.length t2.length : ℕ) : ℚ) /
          ((max t1.length t2.length : ℕ) : ℚ) then true
    else
      let w1 := (pySplit t1).toFinset
      let w2 := (pySplit t2).toFinset
      if (w1.Nonempty ∧ w2.Nonempty) ∧
          (0 < (w1 ∪ w2).card ∧
            thr ≤ (((w1 ∩ w2).card : ℕ) : ℚ) / (((w1 ∪ w2).card : ℕ) : ℚ))
        then true
      else
        let g1 := get_trigrams t1
        let g2 := get_trigrams t2
        if (g1.Nonempty ∧ g2.Nonempty) ∧
            (0 < (g1 ∪ g2).card ∧
              thr ≤ (((g1 ∩ g2).card : ℕ) : ℚ) /
                (((g1 ∪ g2).card : ℕ) : ℚ))
          then true
        else false

/-- `MergedSegment` (merger.py lines 16-25); word entries are kept as
`(start_time, end_time)` pairs. -/
structure MergedSegment where
  speaker_id : String
  text : String
  start_time : ℚ
  end_time : ℚ
  confidence : Option ℚ := none
  words : Option (List (ℚ × ℚ)) := none
deriving DecidableEq

/-- `TranscriptMerger` (merger.py lines 28-44). -/
structure TranscriptMerger where
  overlap_threshold : ℚ := 2
deriving DecidableEq

/-- Python `seg.get("speaker_id") or "SPEAKER_00"` (`or` also replaces the
falsy empty string). -/
def pyOrSpeaker (s : Option String) : String :=
  match s with
  | none => "SPEAKER_00"
  | some t => if t = "" then "SPEAKER_00" else t

/-- `TranscriptMerger._extract_segments` (merger.py lines 154-191):
offset every segment (and word) of a chunk result by the chunk's start
time. -/
def extract_segments (result : ChunkResult) (chunk_info : ChunkInfo) :
    List MergedSegment :=
  result.segments.map (fun seg =>
    { speaker_id := pyOrSpeaker seg.speaker_id,
      text := pyStrip seg.text,
      start_time := seg.start_time + chunk_info.start_time,
      end_time := seg.end_time + chunk_info.start_time,
      confidence := seg.confidence,
      words := seg.words.map (List.map (fun w =>
        (w.1 + chunk_info.start_time, w.2 + chunk_info.start_time))) })

/-- The scan of `TranscriptMerger._deduplicate_overlaps` (merger.py lines
193-243); `acc` is the `result` list, newest first.  A segment starting
more than `overlap_threshold` before the previous end is deduplicated
(keep the longer text) when the texts are similar, else the previous
segment is truncated to its start (when that start is later). -/
def dedupGo (thr : ℚ) : List MergedSegment → List MergedSegment →
    List MergedSegment
  | acc, [] => acc.reverse
  | acc, seg :: rest =>
    match acc with
    | [] => dedupGo thr [seg] rest
    | prev :: accTail =>
      if seg.start_time < prev.end_time - thr then
        if texts_similar prev.text seg.text none then
          if prev.text.length < seg.text.length then
            dedupGo thr (seg :: accTail) rest
          else
            dedupGo thr (prev :: accTail) rest
        else
          if prev.start_time < seg.start_time then
            dedupGo thr
              (seg :: { prev with end_time := seg.start_time } :: accTail)
              rest
          else
            dedupGo thr (seg :: prev :: accTail) rest
      else dedupGo thr (seg :: prev :: accTail) rest

/-- `TranscriptMerger._deduplicate_overlaps` (merger.py lines 193-243). -/
def deduplicate_overlaps (thr : ℚ) : List MergedSegment →
    List MergedSegment
  | [] => []
  | s :: rest => dedupGo thr [s] rest

/-- `f"SPEAKER_{n:02d}"`. -/
def speakerLabel (n : ℕ) : String :=
  "SPEAKER_" ++ (if n < 10 then "0" ++ Nat.repr n else Nat.repr n)

/-- The first-appearance speaker map of
`TranscriptMerger._normalize_speakers` (merger.py lines 352-358). -/
def speakerMapGo : List MergedSegment → List (String × String) →
    List (String × String)
  | [], m => m
  | seg :: rest, m =>
    if (m.find? (fun p => p.1 = seg.speaker_id)).isSome then
      speakerMapGo rest m
    else
      speakerMapGo rest (m ++ [(seg.speaker_id, speakerLabel m.length)])

/-- `TranscriptMerger._normalize_speakers` (merger.py lines 347-371). -/
def normalize_speakers (segments : List MergedSegment) :
    List MergedSegment :=
  let m := speakerMapGo segments []
  segments.map (fun seg =>
    { seg with speaker_id :=
        (((m.find? (fun p => p.1 = seg.speaker_id)).map
          (fun p => p.2)).getD seg.speaker_id) })

/-- `TranscriptMerger._build_full_text` (merger.py lines 373-391): a new
line on every speaker change, a space after a segment not ending in
sentence punctuation, final strip. -/
def build_full_text (segments : List MergedSegment) : String :=
  let step := fun (st : List String × Option String) (seg : MergedSegment) =>
    let parts := st.1
    let pc :=
      if ¬ st.2 = some seg.speaker_id then
        (if ¬ parts = [] then parts ++ ["\n"] else parts, some seg.speaker_id)
      else (parts, st.2)
    let parts2 := pc.1 ++ [seg.text]
    let parts3 :=
      if ¬ (pyEndsWith seg.text "." ∨ pyEndsWith seg.text "!" ∨
          pyEndsWith seg.text "?" ∨ pyEndsWith seg.text ",") then
        parts2 ++ [" "]
      else parts2
    (parts3, pc.2)
  if segments = [] then ""
  else pyStrip (String.join (segments.foldl step ([], none)).1)

/-- One speaker's accumulated statistics. -/
structure SpeakerStat where
  speaker_id : String
  total_duration : ℚ
  segment_count : ℕ
deriving DecidableEq

/-- The accumulation loop of `TranscriptMerger._compute_speaker_stats`
(merger.py lines 398-404), keyed in first-appearance order. -/
def statsGo : List MergedSegment → List (String × ℚ × ℕ) →
    List (String × ℚ × ℕ)
  | [], m => m
  | seg :: rest, m =>
    if (m.find? (fun p => p.1 = seg.speaker_id)).isSome then
      statsGo rest (m.map (fun p =>
        if p.1 = seg.speaker_id then
          (p.1, p.2.1 + (seg.end_time - seg.start_time), p.2.2 + 1)
        else p))
    else
      statsGo rest (m ++ [(seg.speaker_id,
        seg.end_time - seg.start_time, 1)])

/-- `TranscriptMerger._compute_speaker_stats` (merger.py lines 393-413):
per-speaker total seconds (rounded to 2 decimals) and segment count,
sorted by speaker id. -/
def compute_speaker_stats (segments : List MergedSegment) :
    List SpeakerStat :=
  ((statsGo segments []).mergeSort (fun a b => decide ¬ (b.1 < a.1))).map
    (fun p => ⟨p.1, pyRound2 p.2.1, p.2.2⟩)

/-- The merged-transcript document (merger.py lines 99-118; the empty and
single-chunk paths fill the same fields). -/
structure MergeOutput where
  full_text : String
  segments : List MergedSegment
  speakers : List SpeakerStat
  chunks_merged : ℕ
  total_segments : ℕ
  dedup_removed : Option ℕ := none
  warnings : List String := []
deriving DecidableEq

/-- `TranscriptMerger._format_single_chunk` (merger.py lines 120-152):
normalize the speakers of the single chunk's raw segments (text and
timestamps pass through unchanged) and join the texts when the chunk has
no top-level text. -/
def format_single_chunk (result : ChunkResult) : MergeOutput :=
  let full_text :=
    if result.text = "" ∧ ¬ result.segments = [] then
      String.intercalate " " (result.segments.map (fun s => s.text))
    else result.text
  let pre := result.segments.map (fun seg =>
    ({ speaker_id := pyOrSpeaker seg.speaker_id,
       text := seg.text,
       start_time := seg.start_time,
       end_time := seg.end_time,
       confidence := seg.confidence,
       words := seg.words } : MergedSegment))
  let normalized := normalize_speakers pre
  { full_text := full_text,
    segments := normalized,
    speakers := compute_speaker_stats normalized,
    chunks_merged := 1,
    total_segments := normalized.length }

/-- `TranscriptMerger.merge_transcripts` (merger.py lines 46-118).  The
`_validate_chunk_completeness` call only logs warnings and cannot change
the output, so it is not modelled. -/
def merge_transcripts (m : TranscriptMerger)
    (chunk_results : List ChunkResult) (chunk_infos : List ChunkInfo) :
    MergeOutput :=
  match chunk_results with
  | [] =>
    { full_text := "", segments := [], speakers := [], chunks_merged := 0,
      total_segments := 0,
      warnings := ["No transcription results to merge"] }
  | [r] => format_single_chunk r
  | _ :: _ :: _ =>
    let all_segments :=
      ((chunk_results.zip chunk_infos).map
        (fun rc => extract_segments rc.1 rc.2)).flatten
    let sorted_segments :=
      all_segments.mergeSort (fun a b => decide (a.start_time ≤ b.start_time))
    let deduped := deduplicate_overlaps m.overlap_threshold sorted_segments
    let normalized := normalize_speakers deduped
    { full_text := build_full_text normalized,
      segments := normalized,
      speakers := compute_speaker_stats normalized,
      chunks_merged := chunk_results.length,
      total_segments := normalized.length,
      dedup_removed := some (all_segments.length - deduped.length) }

/-- C9 counterexample: identical inputs do not always return `true` — the
emptiness guard makes `_texts_similar("", "")` return `false`. -/
theorem C9_texts_similar_counterexample :
    texts_similar "" "" none = false := by
  rfl

/-- C9 (amended): the similarity test is symmetric (for all inputs) and
reflexive on non-empty inputs, so identical non-empty inputs always return
`true` (identical empty inputs return `false`); in particular
`texts_similar("hello world", "hello world") = true` and
`texts_similar("abc def ghi", "xyz uvw rst") = false`. -/
theorem C9_texts_similar_props :
    (∀ (a b : String) (thr : Option ℚ),
      texts_similar a b thr = texts_similar b a thr) ∧
    (∀ (a : String) (thr : Option ℚ), a ≠ "" →
      texts_similar a a thr = true) ∧
    texts_similar "hello world" "hello world" none = true ∧
    texts_similar "abc def ghi" "xyz uvw rst" none = false := by
  refine ⟨?_, ?_, by with_unfolding_all decide, by with_unfolding_all decide⟩
  · intro a b thr
    unfold texts_similar
    dsimp only
    refine if_congr or_comm rfl ?_
    refine if_congr eq_comm rfl ?_
    refine if_congr ?_ rfl ?_
    · apply and_congr or_comm
      exact iff_of_eq (by rw [min_comm, max_comm])
    · refine if_congr ?_ rfl ?_
      · apply and_congr and_comm
        apply and_congr
        · exact iff_of_eq (by rw [Finset.union_comm])
        · exact iff_of_eq (by rw [Finset.union_comm, Finset.inter_comm])
      · refine if_congr ?_ rfl rfl
        apply and_congr and_comm
        apply and_congr
        · exact iff_of_eq (by rw [Finset.union_comm])
        · exact iff_of_eq (by rw [Finset.union_comm, Finset.inter_comm])
  · intro a thr ha
    unfold texts_similar
    dsimp only
    rw [if_neg (by tauto), if_pos rfl]

/-- C9 witness: reflexivity applied to the non-empty text
`"hello world"`. -/
theorem C9_texts_similar_props_witness :
    texts_similar "hello world" "hello world" none = true := by
  exact C9_texts_similar_props.2.1 "hello world" none (by decide)

/-- A merged segment lying inside `[0, D]` with positive length. -/
def SegOK (D : ℚ) (s : MergedSegment) : Prop :=
  0 ≤ s.start_time ∧ s.start_time < s.end_time ∧ s.end_time ≤ D

theorem extract_segments_ok (r : ChunkResult) (ci : ChunkInfo) (D : ℚ)
    (hc1 : 0 ≤ ci.start_time) (hc2 : ci.duration = ci.end_time - ci.start_time)
    (hc3 : ci.end_time ≤ D)
    (hsegs : ∀ s ∈ r.segments,
      0 ≤ s.start_time ∧ s.start_time < s.end_time ∧
        s.end_time ≤ ci.duration) :
    ∀ s ∈ extract_segments r ci, SegOK D s := by
  intro s hs
  obtain ⟨t, ht, rfl⟩ := List.mem_map.mp hs
  obtain ⟨h1, h2, h3⟩ := hsegs t ht
  exact ⟨by dsimp only; linarith, by dsimp only; linarith,
    by dsimp only; linarith⟩

theorem normalize_speakers_ok (D : ℚ) (l : List MergedSegment)
    (h : ∀ s ∈ l, SegOK D s) :
    ∀ s ∈ normalize_speakers l, SegOK D s := by
  intro s hs
  unfold normalize_speakers at hs
  obtain ⟨t, ht, rfl⟩ := List.mem_map.mp hs
  exact h t ht

theorem normalize_speakers_sorted (l : List MergedSegment)
    (h : List.Pairwise (fun a b : MergedSegment =>
      a.start_time ≤ b.start_time) l) :
    List.Pairwise (fun a b : MergedSegment =>
      a.start_time ≤ b.start_time) (normalize_speakers l) := by
  unfold normalize_speakers
  exact List.pairwise_map.mpr h

/-- Invariant of the deduplication scan: when the accumulator (newest
first) and the pending list are sorted, mutually ordered and in bounds,
the output is sorted and in bounds. -/
theorem dedupGo_ok (thr D : ℚ) :
    ∀ (pending acc : List MergedSegment),
      acc ≠ [] →
      (∀ s ∈ acc, SegOK D s) →
      (∀ s ∈ pending, SegOK D s) →
      List.Pairwise (fun a b => b.start_time ≤ a.start_time) acc →
      List.Pairwise (fun a b => a.start_time ≤ b.start_time) pending →
      (∀ a ∈ acc, ∀ p ∈ pending, a.start_time ≤ p.start_time) →
      (∀ s ∈ dedupGo thr acc pending, SegOK D s) ∧
      List.Pairwise (fun a b => a.start_time ≤ b.start_time)
        (dedupGo thr acc pending) := by
  intro pending
  induction pending with
  | nil =>
    intro acc hne hacc hpend haccsorted hpendsorted hlink
    rw [dedupGo]
    constructor
    · intro s hs
      exact hacc s (List.mem_reverse.mp hs)
    · exact List.pairwise_reverse.mpr haccsorted
  | cons seg rest ih =>
    intro acc hne hacc hpend haccsorted hpendsorted hlink
    match acc, hne with
    | prev :: accTail, _ =>
      have haccTailLe : ∀ a ∈ accTail, a.start_time ≤ prev.start_time :=
        (List.pairwise_cons.mp haccsorted).1
      have haccTailSorted := (List.pairwise_cons.mp haccsorted).2
      have hprevseg : prev.start_time ≤ seg.start_time :=
        hlink prev (List.mem_cons_self _ _) seg (List.mem_cons_self _ _)
      have hsegOK : SegOK D seg := hpend seg (List.mem_cons_self _ _)
      have hprevOK : SegOK D prev := hacc prev (List.mem_cons_self _ _)
      have haccTailOK : ∀ s ∈ accTail, SegOK D s :=
        fun s hs => hacc s (List.mem_cons_of_mem _ hs)
      have hrestOK : ∀ s ∈ rest, SegOK D s :=
        fun s hs => hpend s (List.mem_cons_of_mem _ hs)
      have hsegrest : ∀ p ∈ rest, seg.start_time ≤ p.start_time :=
        (List.pairwise_cons.mp hpendsorted).1
      have hrestsorted := (List.pairwise_cons.mp hpendsorted).2
      have hlinkrest : ∀ a ∈ prev :: accTail, ∀ p ∈ rest,
          a.start_time ≤ p.start_time :=
        fun a ha p hp => hlink a ha p (List.mem_cons_of_mem _ hp)
      have hreplace :
          (∀ s ∈ dedupGo thr (seg :: accTail) rest, SegOK D s) ∧
          List.Pairwise (fun a b => a.start_time ≤ b.start_time)
            (dedupGo thr (seg :: accTail) rest) := by
        refine ih (seg :: accTail) (by simp) ?_ hrestOK ?_ hrestsorted ?_
        · intro s hs
          rcases List.mem_cons.mp hs with hs | hs
          · rw [hs]; exact hsegOK
          · exact haccTailOK s hs
        · refine List.pairwise_cons.mpr ⟨?_, haccTailSorted⟩
          intro a ha
          exact le_trans (haccTailLe a ha) hprevseg
        · intro a ha p hp
          rcases List.mem_cons.mp ha with ha | ha
          · rw [ha]; exact hsegrest p hp
          · exact hlinkrest a (List.mem_cons_of_mem _ ha) p hp
      have hkeep :
          (∀ s ∈ dedupGo thr (prev :: accTail) rest, SegOK D s) ∧
          List.Pairwise (fun a b => a.start_time ≤ b.start_time)
            (dedupGo thr (prev :: accTail) rest) :=
        ih (prev :: accTail) (by simp) hacc hrestOK haccsorted
          hrestsorted hlinkrest
      have happend :
          (∀ s ∈ dedupGo thr (seg :: prev :: accTail) rest, SegOK D s) ∧
          List.Pairwise (fun a b => a.start_time ≤ b.start_time)
            (dedupGo thr (seg :: prev :: accTail) rest) := by
        refine ih (seg :: prev :: accTail) (by simp) ?_ hrestOK ?_
          hrestsorted ?_
        · intro s hs
          rcases List.mem_cons.mp hs with hs | hs
          · rw [hs]; exact hsegOK
          · exact hacc s hs
        · refine List.pairwise_cons.mpr ⟨?_, haccsorted⟩
          intro a ha
          rcases List.mem_cons.mp ha with ha | ha
          · rw [ha]; exact hprevseg
          · exact le_trans (haccTailLe a ha) hprevseg
        · intro a ha p hp
          rcases List.mem_cons.mp ha with ha | ha
          · rw [ha]; exact hsegrest p hp
          · exact hlinkrest a ha p hp
      rw [dedupGo]
      by_cases h1 : seg.start_time < prev.end_time - thr
      · rw [if_pos h1]
        by_cases h2 : texts_similar prev.text seg.text none = true
        · rw [if_pos h2]
          by_cases h3 : prev.text.length < seg.text.length
          · rw [if_pos h3]
            exact hreplace
          · rw [if_neg h3]
            exact hkeep
        · rw [if_neg h2]
          by_cases h4 : prev.start_time < seg.start_time
          · rw [if_pos h4]
            refine ih (seg :: { prev with end_time := seg.start_time }
              :: accTail) (by simp) ?_ hrestOK ?_ hrestsorted ?_
            · intro s hs
              rcases List.mem_cons.mp hs with hs | hs
              · rw [hs]; exact hsegOK
              · rcases List.mem_cons.mp hs with hs | hs
                · rw [hs]
                  exact ⟨hprevOK.1, h4, le_trans hsegOK.2.1.le hsegOK.2.2⟩
                · exact haccTailOK s hs
            · refine List.pairwise_cons.mpr ⟨?_, ?_⟩
              · intro a ha
                rcases List.mem_cons.mp ha with ha | ha
                · rw [ha]; exact hprevseg
                · exact le_trans (haccTailLe a ha) hprevseg
              · refine List.pairwise_cons.mpr ⟨?_, haccTailSorted⟩
                intro a ha
                exact haccTailLe a ha
            · intro a ha p hp
              rcases List.mem_cons.mp ha with ha | ha
              · rw [ha]; exact hsegrest p hp
              · rcases List.mem_cons.mp ha with ha | ha
                · rw [ha]
                  exact hlinkrest prev (List.mem_cons_self _ _) p hp
                · exact hlinkrest a (List.mem_cons_of_mem _ ha) p hp
          · rw [if_neg h4]
            exact happend
      · rw [if_neg h1]
        exact happend

theorem deduplicate_overlaps_ok (thr D : ℚ) (l : List MergedSegment)
    (hOK : ∀ s ∈ l, SegOK D s)
    (hsorted : List.Pairwise (fun a b => a.start_time ≤ b.start_time) l) :
    (∀ s ∈ deduplicate_overlaps thr l, SegOK D s) ∧
    List.Pairwise (fun a b => a.start_time ≤ b.start_time)
      (deduplicate_overlaps thr l) := by
  cases l with
  | nil =>
    constructor
    · intro s hs
      rw [deduplicate_overlaps] at hs
      exact absurd hs (List.not_mem_nil s)
    · rw [deduplicate_overlaps]
      exact List.Pairwise.nil
  | cons s rest =>
    rw [deduplicate_overlaps]
    refine dedupGo_ok thr D rest [s] (by simp) ?_ ?_ ?_ ?_ ?_
    · intro t ht
      simp only [List.mem_singleton] at ht
      rw [ht]
      exact hOK s (List.mem_cons_self _ _)
    · exact fun t ht => hOK t (List.mem_cons_of_mem _ ht)
    · exact List.pairwise_singleton _ _
    · exact (List.pairwise_cons.mp hsorted).2
    · intro a ha p hp
      simp only [List.mem_singleton] at ha
      rw [ha]
      exact (List.pairwise_cons.mp hsorted).1 p hp

theorem mergeSort_start_sorted (l : List MergedSegment) :
    List.Pairwise (fun a b => a.start_time ≤ b.start_time)
      (l.mergeSort (fun a b => decide (a.start_time ≤ b.start_time))) := by
  have h := @List.sorted_mergeSort MergedSegment
    (fun a b => decide (a.start_time ≤ b.start_time))
    (by
      intro a b c hab hbc
      simp only [decide_eq_true_eq] at hab hbc ⊢
      linarith)
    (by
      intro a b
      simp only [Bool.or_eq_true, decide_eq_true_eq]
      exact le_total _ _)
    l
  exact h.imp (fun hab => of_decide_eq_true hab)

/-- C3 counterexample: two chunk results whose segment timestamps all lie
within `[0, chunk.duration]` and whose chunk spans lie within
`[0, job.duration]`, yet the first input segment is the degenerate
`(0, 0)`, which the merger passes through — the output violates
`start_time < end_time`. -/
theorem C3_merge_transcripts_counterexample :
    (merge_transcripts ⟨2⟩
        [⟨"", [⟨some "A", "x", 0, 0, none, none⟩]⟩,
         ⟨"", [⟨some "B", "y", 1, 2, none, none⟩]⟩]
        [⟨0, 0, 10, 10⟩, ⟨1, 8, 18, 10⟩]).segments
      = [⟨"SPEAKER_00", "x", 0, 0, none, none⟩,
         ⟨"SPEAKER_01", "y", 9, 10, none, none⟩] ∧
    ¬ ∀ s ∈ (merge_transcripts ⟨2⟩
        [⟨"", [⟨some "A", "x", 0, 0, none, none⟩]⟩,
         ⟨"", [⟨some "B", "y", 1, 2, none, none⟩]⟩]
        [⟨0, 0, 10, 10⟩, ⟨1, 8, 18, 10⟩]).segments,
      s.start_time < s.end_time := by
  have he : (merge_transcripts ⟨2⟩
      [⟨"", [⟨some "A", "x", 0, 0, none, none⟩]⟩,
       ⟨"", [⟨some "B", "y", 1, 2, none, none⟩]⟩]
      [⟨0, 0, 10, 10⟩, ⟨1, 8, 18, 10⟩]).segments
      = [⟨"SPEAKER_00", "x", 0, 0, none, none⟩,
         ⟨"SPEAKER_01", "y", 9, 10, none, none⟩] := by
    with_unfolding_all decide
  refine ⟨he, fun h => ?_⟩
  have h2 := h ⟨"SPEAKER_00", "x", 0, 0, none, none⟩ (by rw [he]; simp)
  exact absurd h2 (by norm_num)

/-- C3 (amended): for two or more chunk results whose segments each have
`0 ≤ start_time < end_time ≤ chunk.duration` (strictly positive length,
which the original claim does not require), over chunk descriptors with
`0 ≤ start_time`, `duration = end_time - start_time` and
`end_time ≤ job.duration`, every output segment of `merge_transcripts`
satisfies `0 ≤ start_time < end_time ≤ job.duration` and the output is
sorted by `start_time`. -/
theorem C3_merge_transcripts_invariants (m : TranscriptMerger)
    (chunk_results : List ChunkResult) (chunk_infos : List ChunkInfo)
    (jobD : ℚ) (hlen : 2 ≤ chunk_results.length)
    (hzip : ∀ p ∈ chunk_results.zip chunk_infos,
      (0 ≤ p.2.start_time ∧ p.2.duration = p.2.end_time - p.2.start_time ∧
        p.2.end_time ≤ jobD) ∧
      ∀ s ∈ p.1.segments,
        0 ≤ s.start_time ∧ s.start_time < s.end_time ∧
          s.end_time ≤ p.2.duration) :
    (∀ s ∈ (merge_transcripts m chunk_results chunk_infos).segments,
      0 ≤ s.start_time ∧ s.start_time < s.end_time ∧
        s.end_time ≤ jobD) ∧
    List.Pairwise (fun a b => a.start_time ≤ b.start_time)
      (merge_transcripts m chunk_results chunk_infos).segments := by
  match chunk_results, hlen with
  | r1 :: r2 :: rs, _ =>
    have hall : ∀ s ∈ (((r1 :: r2 :: rs).zip chunk_infos).map
        (fun rc => extract_segments rc.1 rc.2)).flatten, SegOK jobD s := by
      intro s hs
      rw [List.mem_flatten] at hs
      obtain ⟨t, ht, hst⟩ := hs
      obtain ⟨rc, hrc, rfl⟩ := List.mem_map.mp ht
      obtain ⟨hc, hsegs⟩ := hzip rc hrc
      exact extract_segments_ok rc.1 rc.2 jobD hc.1 hc.2.1 hc.2.2 hsegs s hst
    have hsortOK : ∀ s ∈ ((((r1 :: r2 :: rs).zip chunk_infos).map
        (fun rc => extract_segments rc.1 rc.2)).flatten).mergeSort
          (fun a b => decide (a.start_time ≤ b.start_time)), SegOK jobD s :=
      fun s hs => hall s (List.mem_mergeSort.mp hs)
    have hded := deduplicate_overlaps_ok m.overlap_threshold jobD _
      hsortOK (mergeSort_start_sorted _)
    constructor
    · intro s hs
      exact normalize_speakers_ok jobD _ hded.1 s hs
    · exact normalize_speakers_sorted _ hded.2

/-- C3 witness: the amended statement on two strictly positive chunk
results over chunks `[0, 10]` and `[8, 18]` of an 18-second job. -/
theorem C3_merge_transcripts_invariants_witness :
    (∀ s ∈ (merge_transcripts ⟨2⟩
        [⟨"", [⟨some "A", "x", 0, 5, none, none⟩]⟩,
         ⟨"", [⟨some "B", "y", 1, 2, none, none⟩]⟩]
        [⟨0, 0, 10, 10⟩, ⟨1, 8, 18, 10⟩]).segments,
      0 ≤ s.start_time ∧ s.start_time < s.end_time ∧
        s.end_time ≤ (18 : ℚ)) ∧
    List.Pairwise (fun a b => a.start_time ≤ b.start_time)
      (merge_transcripts ⟨2⟩
        [⟨"", [⟨some "A", "x", 0, 5, none, none⟩]⟩,
         ⟨"", [⟨some "B", "y", 1, 2, none, none⟩]⟩]
        [⟨0, 0, 10, 10⟩, ⟨1, 8, 18, 10⟩]).segments := by
  refine C3_merge_transcripts_invariants ⟨2⟩
    [⟨"", [⟨some "A", "x", 0, 5, none, none⟩]⟩,
     ⟨"", [⟨some "B", "y", 1, 2, none, none⟩]⟩]
    [⟨0, 0, 10, 10⟩, ⟨1, 8, 18, 10⟩] 18 (by norm_num) ?_
  intro p hp
  rcases List.mem_cons.mp hp with h | hp2
  · rw [h]
    refine ⟨⟨by norm_num, by norm_num, by norm_num⟩, ?_⟩
    intro s hs
    simp only [List.mem_singleton] at hs
    rw [hs]
    norm_num
  · rcases List.mem_cons.mp hp2 with h | hp3
    · rw [h]
      refine ⟨⟨by norm_num, by norm_num, by norm_num⟩, ?_⟩
      intro s hs
      simp only [List.mem_singleton] at hs
      rw [hs]
      norm_num
    · cases hp3
